import Mathlib

/-!
Shallow embedding of the red-black tree container from `src/unnamed/part_002`
(`namespace rb_tree`, `template <class T, class Compare, class Alloc> class rb_tree`),
the most complete variant in the repository.

Modelling conventions:
* Keys come from a linearly ordered type `α`; the comparator `comp_` is `(· < ·)`.
* The pointer graph below a node is the inductive `Tree`; a null child pointer
  (`nil_ = 0`) is the constructor `Tree.nil`.
* Parent pointers are represented by zipper contexts (`Ctx`): the list of frames
  from a node up to the sentinel `end_`.  The sentinel is the empty context; its
  `left` and `right` links both point at the root (`set_root`), so the test
  `x->parent == end_` corresponds to an empty context.
* Reads through a null pointer (`x->field` with `x == nil_`) are modelled by
  `Option`: `none` is the run-time error.  Upward loops take explicit fuel;
  fuel exhaustion also yields `none` and is proved unreachable under the
  red-black invariants.
* An iterator holds a non-owning pointer to a real node: modelled by `Zip`, a
  focused real node together with its context; the `end()` iterator is `none`.
-/

namespace RbTree

/-- Node colors, from the source's `rb_tree_color` enumeration (`red_`, `black_`). -/
inductive Color where
  | red
  | black
deriving DecidableEq

/-- The node graph reachable from a node pointer: each `rb_tree_node` owns a
`value`, a `color` and two child links; a `nil_` link is `nil`. -/
inductive Tree (α : Type) where
  | nil
  | node (color : Color) (l : Tree α) (key : α) (r : Tree α)
deriving DecidableEq

namespace Tree

variable {α : Type}

/-- In-order key sequence of a subtree. -/
def inorder : Tree α → List α
  | nil => []
  | node _ l k r => inorder l ++ k :: inorder r

/-- Color of the node a (possibly null) pointer designates; a `nil_` child is
treated as black, exactly as the guarded tests in the source
(`w->left == nil_ || w->left->color == black_`) do. -/
def rootColor : Tree α → Color
  | nil => .black
  | node c _ _ _ => c

/-- The unguarded test `y != nil_ && y->color == red_` from `insert_fixup`. -/
def isRed : Tree α → Bool
  | node .red _ _ _ => true
  | _ => false

/-- Assignment `x->color = black_` to the node a pointer designates (used for
the root after `insert_fixup` and for `x` after `erase_fixup`; never reached
with a null pointer in the source, so the `nil` case is inert). -/
def setBlackRoot : Tree α → Tree α
  | nil => nil
  | node _ l k r => node .black l k r

/-- Number of stored keys below a node. -/
def sizeOf' : Tree α → Nat
  | nil => 0
  | node _ l _ r => sizeOf' l + 1 + sizeOf' r

end Tree

/-- Which child slot of its parent a node occupies. -/
inductive Dir where
  | left
  | right
deriving DecidableEq

/-- One step of a parent chain: the parent node's color and key, which child
slot the chain continues through (`dir`), and the sibling subtree hanging off
the other slot. -/
structure Frame (α : Type) where
  dir : Dir
  color : Color
  key : α
  sib : Tree α
deriving DecidableEq

/-- A full parent chain from a node up to the sentinel `end_`. -/
abbrev Ctx (α : Type) := List (Frame α)

/-- Rebuild the parent node from a frame and the child subtree it points to. -/
def fill {α : Type} (fr : Frame α) (t : Tree α) : Tree α :=
  match fr.dir with
  | .left => .node fr.color t fr.key fr.sib
  | .right => .node fr.color fr.sib fr.key t

/-- Rebuild the whole tree from a subtree and its parent chain. -/
def plug {α : Type} : Tree α → Ctx α → Tree α
  | t, [] => t
  | t, fr :: rest => plug (fill fr t) rest

/-- Keys stored strictly to the left of a context's hole, in in-order order. -/
def ctxLeft {α : Type} : Ctx α → List α
  | [] => []
  | fr :: rest =>
    match fr.dir with
    | .left => ctxLeft rest
    | .right => ctxLeft rest ++ fr.sib.inorder ++ [fr.key]

/-- Keys stored strictly to the right of a context's hole, in in-order order. -/
def ctxRight {α : Type} : Ctx α → List α
  | [] => []
  | fr :: rest =>
    match fr.dir with
    | .left => fr.key :: fr.sib.inorder ++ ctxRight rest
    | .right => ctxRight rest

theorem inorder_fill {α : Type} (fr : Frame α) (t : Tree α) :
    (fill fr t).inorder =
      (match fr.dir with
        | .left => t.inorder ++ fr.key :: fr.sib.inorder
        | .right => fr.sib.inorder ++ fr.key :: t.inorder) := by
  cases fr with
  | mk d c k s => cases d <;> rfl

theorem inorder_plug {α : Type} (t : Tree α) (ctx : Ctx α) :
    (plug t ctx).inorder = ctxLeft ctx ++ t.inorder ++ ctxRight ctx := by
  induction ctx generalizing t with
  | nil => simp [plug, ctxLeft, ctxRight]
  | cons fr rest ih =>
    cases fr with
    | mk d c k s =>
      cases d <;>
        simp [plug, ctxLeft, ctxRight, ih, inorder_fill, Tree.inorder,
          List.append_assoc]

/-- The balance part of the red-black invariants for a subtree:
`Bal t c n` says `t` has root color `c` (a `nil` counting as black), no red
node has a red child inside `t`, and every path from the root to a `nil` holds
exactly `n` black nodes. -/
inductive Bal {α : Type} : Tree α → Color → Nat → Prop where
  | nil : Bal .nil .black 0
  | red {l r : Tree α} {k : α} {n : Nat} :
      Bal l .black n → Bal r .black n → Bal (.node .red l k r) .red n
  | black {l r : Tree α} {k : α} {cl cr : Color} {n : Nat} :
      Bal l cl n → Bal r cr n → Bal (.node .black l k r) .black (n + 1)

/-- Balance invariant for a parent chain: `CtxBal ctx c n c₀ n₀` says the chain
is a fragment of a red-black tree whose overall balance is `(c₀, n₀)`, with a
hole expecting a subtree of balance `(c, n)`. -/
inductive CtxBal {α : Type} : Ctx α → Color → Nat → Color → Nat → Prop where
  | root {c : Color} {n : Nat} : CtxBal [] c n c n
  | redL {k : α} {sib : Tree α} {ctx : Ctx α} {n : Nat} {c₀ : Color} {n₀ : Nat} :
      Bal sib .black n → CtxBal ctx .red n c₀ n₀ →
      CtxBal (⟨.left, .red, k, sib⟩ :: ctx) .black n c₀ n₀
  | redR {k : α} {sib : Tree α} {ctx : Ctx α} {n : Nat} {c₀ : Color} {n₀ : Nat} :
      Bal sib .black n → CtxBal ctx .red n c₀ n₀ →
      CtxBal (⟨.right, .red, k, sib⟩ :: ctx) .black n c₀ n₀
  | blackL {k : α} {sib : Tree α} {ctx : Ctx α} {c₁ c₂ : Color} {n : Nat}
      {c₀ : Color} {n₀ : Nat} :
      Bal sib c₂ n → CtxBal ctx .black (n + 1) c₀ n₀ →
      CtxBal (⟨.left, .black, k, sib⟩ :: ctx) c₁ n c₀ n₀
  | blackR {k : α} {sib : Tree α} {ctx : Ctx α} {c₁ c₂ : Color} {n : Nat}
      {c₀ : Color} {n₀ : Nat} :
      Bal sib c₁ n → CtxBal ctx .black (n + 1) c₀ n₀ →
      CtxBal (⟨.right, .black, k, sib⟩ :: ctx) c₂ n c₀ n₀

theorem CtxBal.fill_bal {α : Type} {ctx : Ctx α} {c : Color} {n : Nat}
    {c₀ : Color} {n₀ : Nat} {t : Tree α}
    (hc : CtxBal ctx c n c₀ n₀) (ht : Bal t c n) : Bal (plug t ctx) c₀ n₀ := by
  induction hc generalizing t with
  | root => exact ht
  | redL hs hrest ih => exact ih (.red ht hs)
  | redR hs hrest ih => exact ih (.red hs ht)
  | blackL hs hrest ih => exact ih (.black ht hs)
  | blackR hs hrest ih => exact ih (.black hs ht)

theorem Bal.ne_nil {α : Type} {t : Tree α} {c : Color} {n : Nat}
    (h : Bal t c (n + 1)) : t ≠ Tree.nil := by
  intro he; subst he; cases h

theorem Bal.rootColor_eq {α : Type} {t : Tree α} {c : Color} {n : Nat}
    (h : Bal t c n) : t.rootColor = c := by
  cases h <;> rfl

/-- Decompose the balance of a whole tree at an arbitrary zipper position. -/
theorem bal_decompose {α : Type} {t f : Tree α} {ctx : Ctx α} {c₀ : Color}
    {n₀ : Nat} (ht : Bal t c₀ n₀) (he : plug f ctx = t) :
    ∃ c n, Bal f c n ∧ CtxBal ctx c n c₀ n₀ := by
  induction ctx generalizing f with
  | nil =>
    rw [show plug f [] = f from rfl] at he
    exact ⟨c₀, n₀, he ▸ ht, .root⟩
  | cons fr rest ih =>
    obtain ⟨c, n, hb, hctx⟩ := ih (f := fill fr f) he
    cases fr with
    | mk d co k s =>
      cases d with
      | left =>
        cases co with
        | red =>
          cases hb with
          | red hl hr => exact ⟨.black, n, hl, .redL hr hctx⟩
        | black =>
          cases hb with
          | black hl hr => exact ⟨_, _, hl, .blackL hr hctx⟩
      | right =>
        cases co with
        | red =>
          cases hb with
          | red hl hr => exact ⟨.black, n, hr, .redR hl hctx⟩
        | black =>
          cases hb with
          | black hl hr => exact ⟨_, _, hr, .blackR hl hctx⟩

theorem plug_append {α : Type} (t : Tree α) (a b : Ctx α) :
    plug t (a ++ b) = plug (plug t a) b := by
  induction a generalizing t with
  | nil => rfl
  | cons fr rest ih => simp [plug, ih]

theorem CtxBal.append {α : Type} {a b : Ctx α} {c : Color} {n : Nat}
    {c₁ : Color} {n₁ : Nat} {c₀ : Color} {n₀ : Nat}
    (ha : CtxBal a c n c₁ n₁) (hb : CtxBal b c₁ n₁ c₀ n₀) :
    CtxBal (a ++ b) c n c₀ n₀ := by
  induction ha with
  | root => exact hb
  | redL hs hrest ih => exact .redL hs (ih hb)
  | redR hs hrest ih => exact .redR hs (ih hb)
  | blackL hs hrest ih => exact .blackL hs (ih hb)
  | blackR hs hrest ih => exact .blackR hs (ih hb)

/-- A chain whose hole expects a red root has a black frame (or nothing) just
above the hole, so the expected color can be changed freely. -/
theorem CtxBal.recolor {α : Type} {ctx : Ctx α} {n : Nat} {c₀ : Color} {n₀ : Nat}
    (h : CtxBal ctx .red n c₀ n₀) (c' : Color) (hne : ctx ≠ []) :
    CtxBal ctx c' n c₀ n₀ := by
  cases h with
  | root => exact absurd rfl hne
  | blackL hs hrest => exact .blackL hs hrest
  | blackR hs hrest => exact .blackR hs hrest

/-- An iterator's target: a real node (color, children, key) plus its parent
chain.  An `iterator_base` holds exactly such a node pointer; the `end_`
iterator is represented as `none` at use sites. -/
structure Zip (α : Type) where
  color : Color
  l : Tree α
  key : α
  r : Tree α
  ctx : Ctx α
deriving DecidableEq

/-- The subtree rooted at the focused node. -/
def Zip.tree {α : Type} (z : Zip α) : Tree α := .node z.color z.l z.key z.r

/-- The whole tree an iterator's node lives in. -/
def plugZ {α : Type} (z : Zip α) : Tree α := plug z.tree z.ctx

variable {α : Type}

/-- `min_node(x)`: follow left links while non-null.  Calling it on a null
pointer reads `x->left` through `nil_`: `none`. -/
def min_node : Tree α → Ctx α → Option (Zip α)
  | .nil, _ => none
  | .node c .nil k r, ctx => some ⟨c, .nil, k, r, ctx⟩
  | .node c (.node cl a lk b) k r, ctx =>
    min_node (.node cl a lk b) (⟨.left, c, k, r⟩ :: ctx)

/-- `max_node(x)`: follow right links while non-null. -/
def max_node : Tree α → Ctx α → Option (Zip α)
  | .nil, _ => none
  | .node c l k .nil, ctx => some ⟨c, l, k, .nil, ctx⟩
  | .node c l k (.node cr a rk b), ctx =>
    max_node (.node cr a rk b) (⟨.right, c, k, l⟩ :: ctx)

/-- Ascending branch of `next_node`: climb while the node is its parent's right
child (`while (tmp->left != x)`); stop at the first parent reached through a
left link.  Reaching the root's parent is reaching `end_`, because
`end_->left == root` stops the source loop there: `none`. -/
def ascendNext : Tree α → Ctx α → Option (Zip α)
  | _, [] => none
  | t, fr :: rest =>
    match fr.dir with
    | .right => ascendNext (fill fr t) rest
    | .left => some ⟨fr.color, t, fr.key, fr.sib, rest⟩

/-- Ascending branch of `prev_node`, the exact mirror. -/
def ascendPrev : Tree α → Ctx α → Option (Zip α)
  | _, [] => none
  | t, fr :: rest =>
    match fr.dir with
    | .left => ascendPrev (fill fr t) rest
    | .right => some ⟨fr.color, fr.sib, fr.key, t, rest⟩

/-- `next_node(x)` on a real node: leftmost node of the right subtree if it is
non-null, otherwise the ascending climb; `none` is the `end_` sentinel. -/
def next_node (z : Zip α) : Option (Zip α) :=
  match z.r with
  | .nil => ascendNext z.tree z.ctx
  | .node cr a k b => min_node (.node cr a k b) (⟨.right, z.color, z.key, z.l⟩ :: z.ctx)

/-- `prev_node(x)` on a real node, the exact mirror of `next_node`. -/
def prev_node (z : Zip α) : Option (Zip α) :=
  match z.l with
  | .nil => ascendPrev z.tree z.ctx
  | .node cl a k b => max_node (.node cl a k b) (⟨.left, z.color, z.key, z.r⟩ :: z.ctx)

/-- `prev_node(end_)`: follows `end_->left` (the root) and descends right; on an
empty tree the source dereferences the null root (`none`). -/
def prevOfEnd (t : Tree α) : Option (Zip α) := max_node t []

/-- The container state: the root hung off the sentinel's child links, the
begin cache (`begin_`, stored as the cached node's key; `none` is `end_`, the
empty-tree value), and the element count `size_`. -/
structure rb_tree (α : Type) where
  root : Tree α
  begin_ : Option α
  size_ : Nat
deriving DecidableEq

/-- The default-constructed tree: null root, `begin_ = end_`, `size_ = 0`. -/
def rb_tree.mkEmpty : rb_tree α := ⟨.nil, none, 0⟩

/-- Recolor the focused node red, `z->color = red_` at the top of
`insert_fixup`. -/
def Tree.setRedRoot : Tree α → Tree α
  | .nil => .nil
  | .node _ l k r => .node .red l k r

/-- The loop of `insert_fixup`: `z` (red) is the focus, `ctx` its parent chain.
One recursive call per loop iteration; the fuel dominates the iteration count
and is proved sufficient under the invariants. -/
def insfix : Nat → Tree α → Ctx α → Option (Tree α)
  | 0, _, _ => none
  | _ + 1, z, [] =>
    -- z->parent == end_ is black: the loop exits; `root()->color = black_`
    some z.setBlackRoot
  | fuel + 1, z, fr :: rest =>
    match fr.color with
    | .black => some (plug z (fr :: rest)).setBlackRoot  -- loop exit
    | .red =>
      match rest with
      | [] => none
        -- a red parent that is the root: excluded by invariant 4; the source
        -- would walk to the sentinel and recolor it
      | gf :: rest' =>
        if (gf.sib).isRed then
          -- red uncle: parent and uncle black, grandparent red, z = g
          insfix fuel
            (fill { gf with color := .red, sib := gf.sib.setBlackRoot }
              (fill { fr with color := .black } z))
            rest'
        else
          match gf.dir, fr.dir with
          | .left, .left =>
            -- parent black, grandparent red, right_rotate(grandparent)
            insfix fuel z
              (⟨.left, .black, fr.key, .node .red fr.sib gf.key gf.sib⟩ :: rest')
          | .left, .right =>
            -- inner grandchild: z = z->parent; left_rotate(z); then as above
            match z with
            | .nil => none  -- left_rotate reads through a null y->left
            | .node _ za zk zb =>
              insfix fuel (.node .red fr.sib fr.key za)
                (⟨.left, .black, zk, .node .red zb gf.key gf.sib⟩ :: rest')
          | .right, .right =>
            -- parent black, grandparent red, left_rotate(grandparent)
            insfix fuel z
              (⟨.right, .black, fr.key, .node .red gf.sib gf.key fr.sib⟩ :: rest')
          | .right, .left =>
            -- inner grandchild: z = z->parent; right_rotate(z); then as above
            match z with
            | .nil => none
            | .node _ za zk zb =>
              insfix fuel (.node .red zb fr.key fr.sib)
                (⟨.right, .black, zk, .node .red gf.sib gf.key za⟩ :: rest')

/-- `insert_fixup(z)`: color `z` red, repair red-red violations up the parent
chain, and finally force the root black. -/
def insert_fixup (z : Tree α) (ctx : Ctx α) : Option (Tree α) :=
  insfix (ctx.length + 2) z.setRedRoot ctx

/-- Terminal case of one `erase_fixup` iteration: w takes xparent's color,
xparent and w's far child go black, rotate at xparent, `x = root()`; the loop
then exits and blackens the root. -/
def erafixFinal (x : Tree α) (fr : Frame α) (rest : Ctx α) : Option (Tree α) :=
  match fr.dir with
  | .left =>
    match fr.sib with
    | .nil => none
    | .node _ wl wk wr =>
      some (plug (.node fr.color (.node .black x fr.key wl) wk wr.setBlackRoot) rest).setBlackRoot
  | .right =>
    match fr.sib with
    | .nil => none
    | .node _ wl wk wr =>
      some (plug (.node fr.color wl.setBlackRoot wk (.node .black wr fr.key x)) rest).setBlackRoot

mutual

/-- The loop of `erase_fixup(x, xparent)`: `x` is the (possibly null) focus,
`ctx` the chain from `xparent` up.  One `erafix` call per loop iteration. -/
def erafix : Nat → Tree α → Ctx α → Option (Tree α)
  | 0, _, _ => none
  | _ + 1, x, [] =>
    -- x == root(): the loop exits; `if (x != nil_) x->color = black_`
    some x.setBlackRoot
  | fuel + 1, x, fr :: rest =>
    if x.isRed then
      -- a real red x: the loop condition fails; final blacken
      some (plug x.setBlackRoot (fr :: rest))
    else
      match fr.dir with
      | .left =>
        match fr.sib with  -- w = xparent->right
        | .nil => none     -- `w->color` dereferences a null sibling
        | .node wc wl wk wr =>
          if wc = .red then
            -- w red: w black, xparent red, left_rotate(xparent), refresh w
            erafixTail fuel x ⟨.left, .red, fr.key, wl⟩ (⟨.left, .black, wk, wr⟩ :: rest)
          else
            erafixTail fuel x fr rest
      | .right =>
        match fr.sib with  -- w = xparent->left
        | .nil => none
        | .node wc wl wk wr =>
          if wc = .red then
            erafixTail fuel x ⟨.right, .red, fr.key, wr⟩ (⟨.right, .black, wk, wl⟩ :: rest)
          else
            erafixTail fuel x fr rest

/-- Rest of one `erase_fixup` iteration, after the possible red-sibling
rotation: the two-black-children recoloring, or the rotation cases. -/
def erafixTail : Nat → Tree α → Frame α → Ctx α → Option (Tree α)
  | fuel, x, fr, rest =>
    match fr.dir with
    | .left =>
      match fr.sib with
      | .nil => none  -- `w->left` dereferences a null w
      | .node wc wl wk wr =>
        if wl.rootColor = .black ∧ wr.rootColor = .black then
          -- both of w's children black: w red, move the deficiency up
          erafix fuel (fill ⟨.left, fr.color, fr.key, .node .red wl wk wr⟩ x) rest
        else if wr.rootColor = .black then
          -- far child black: blacken w->left, redden w, right_rotate(w)
          match wl with
          | .nil => none  -- right_rotate(w) reads through a null w->left
          | .node _ a ak b =>
            erafixFinal x ⟨.left, fr.color, fr.key, .node .black a ak (.node .red b wk wr)⟩ rest
        else
          erafixFinal x ⟨.left, fr.color, fr.key, .node wc wl wk wr⟩ rest
    | .right =>
      match fr.sib with
      | .nil => none
      | .node wc wl wk wr =>
        if wl.rootColor = .black ∧ wr.rootColor = .black then
          erafix fuel (fill ⟨.right, fr.color, fr.key, .node .red wl wk wr⟩ x) rest
        else if wl.rootColor = .black then
          -- near child red: blacken w->right, redden w, left_rotate(w)
          match wr with
          | .nil => none
          | .node _ a ak b =>
            erafixFinal x ⟨.right, fr.color, fr.key, .node .black (.node .red wl wk a) ak b⟩ rest
        else
          erafixFinal x ⟨.right, fr.color, fr.key, .node wc wl wk wr⟩ rest

end

/-- `erase_fixup(x, xparent)` with sufficient fuel for the loop. -/
def erase_fixup (x : Tree α) (ctx : Ctx α) : Option (Tree α) :=
  erafix (ctx.length + 2) x ctx

/-- `erase_node(z)`: splice the focused node out, maintaining `size_` and the
begin cache, and run `erase_fixup` when the removed or displaced node was
black. -/
def erase_node [DecidableEq α] (s : rb_tree α) (z : Zip α) : Option (rb_tree α) :=
  match z.l, z.r with
  | .nil, zr =>
    -- z->left == nil_: x = z->right fills the slot; advance the begin cache
    -- first if z is the cached leftmost node
    let begin' := if s.begin_ = some z.key
      then (next_node z).map (·.key)
      else s.begin_
    (if z.color = .black then erase_fixup zr z.ctx else some (plug zr z.ctx)).map
      (fun root' => ⟨root', begin', s.size_ - 1⟩)
  | .node cl a lk b, .nil =>
    -- z->right == nil_: x = z->left fills the slot
    (if z.color = .black then erase_fixup (.node cl a lk b) z.ctx
      else some (plug (.node cl a lk b) z.ctx)).map
      (fun root' => ⟨root', s.begin_, s.size_ - 1⟩)
  | .node cl a lk b, .node cr d rk e =>
    -- two children: y = min_node(z->right) is spliced out of its own slot,
    -- takes z's place and color, and adopts z's subtrees; x = y->right,
    -- xparent read off y's old position
    match min_node (.node cr d rk e) [] with
    | none => none
    | some y =>
      let ctxFix : Ctx α := y.ctx ++ ⟨.right, z.color, y.key, .node cl a lk b⟩ :: z.ctx
      (if y.color = .black then erase_fixup y.r ctxFix else some (plug y.r ctxFix)).map
        (fun root' => ⟨root', s.begin_, s.size_ - 1⟩)

/-- `erase_iter(pos)`: erasing `end()` is a no-op returning `end()`; otherwise
the element is erased and the following iterator returned (as its key;
`none` is `end()`). -/
def erase_iter [DecidableEq α] (s : rb_tree α) (pos : Option (Zip α)) :
    Option (rb_tree α × Option α) :=
  match pos with
  | none => some (s, none)
  | some z =>
    (erase_node s z).map (fun s' => (s', (next_node z).map (·.key)))

/-- The descent loop of `lower_bound_unique`: `y` is the best candidate so far,
updated whenever the current node's key is not less than `val`. -/
def lbLoop (val : α) [LinearOrder α] : Tree α → Ctx α → Option (Zip α) → Option (Zip α)
  | .nil, _, y => y
  | .node c l k r, ctx, y =>
    if k < val then lbLoop val r (⟨.right, c, k, l⟩ :: ctx) y
    else lbLoop val l (⟨.left, c, k, r⟩ :: ctx) (some ⟨c, l, k, r, ctx⟩)

/-- `lower_bound_unique(val)`: iterator to the first element not less than
`val`, or `end()` (`none`). -/
def lower_bound_unique [LinearOrder α] (s : rb_tree α) (val : α) : Option (Zip α) :=
  lbLoop val s.root [] none

/-- The descent loop of `upper_bound_unique`. -/
def ubLoop (val : α) [LinearOrder α] : Tree α → Ctx α → Option (Zip α) → Option (Zip α)
  | .nil, _, y => y
  | .node c l k r, ctx, y =>
    if val < k then ubLoop val l (⟨.left, c, k, r⟩ :: ctx) (some ⟨c, l, k, r, ctx⟩)
    else ubLoop val r (⟨.right, c, k, l⟩ :: ctx) y

/-- `upper_bound_unique(val)`: iterator to the first element strictly greater
than `val`, or `end()`. -/
def upper_bound_unique [LinearOrder α] (s : rb_tree α) (val : α) : Option (Zip α) :=
  ubLoop val s.root [] none

/-- `find_unique(val)`: `lower_bound_unique` filtered by exact equality. -/
def find_unique [LinearOrder α] (s : rb_tree α) (val : α) : Option (Zip α) :=
  match lower_bound_unique s val with
  | none => none
  | some j => if val < j.key then none else some j

/-- `equal_range_unique(val)`: `(j, j)` when not found, `(j, std::next(j))`
when found, with `j = lower_bound_unique(val)`. -/
def equal_range_unique [LinearOrder α] (s : rb_tree α) (val : α) :
    Option (Zip α) × Option (Zip α) :=
  match lower_bound_unique s val with
  | none => (none, none)
  | some j => if val < j.key then (some j, some j) else (some j, next_node j)

/-- `erase_unique(val)`: erase by key through `lower_bound_unique`; returns the
number of erased elements. -/
def erase_unique [LinearOrder α] (s : rb_tree α) (val : α) : Option (rb_tree α × Nat) :=
  match lower_bound_unique s val with
  | none => some (s, 0)
  | some j =>
    if val < j.key then some (s, 0)
    else (erase_node s j).map (fun s' => (s', 1))

/-- The descent loop of `insert_unique`: walks to the null slot where the
search falls off the tree, recording the path.  The head frame's `dir` encodes
the final `comp` (`.left` ↔ `comp == true`) and carries the last visited node
`y`. -/
def descend (val : α) [LinearOrder α] : Tree α → Ctx α → Ctx α
  | .nil, ctx => ctx
  | .node c l k r, ctx =>
    if val < k then descend val l (⟨.left, c, k, r⟩ :: ctx)
    else descend val r (⟨.right, c, k, l⟩ :: ctx)

/-- The `/* decrement j */` walk: climb from `y` while the node is a left
child; yield the first ancestor entered from its right child.  Falling off the
root would make the source read the sentinel's uninitialized value: `none`. -/
def walkPred : Ctx α → Option α
  | [] => none
  | fr :: rest =>
    match fr.dir with
    | .left => walkPred rest
    | .right => some fr.key

/-- `insert_unique(val)`: single descent remembering `y` and `comp`, duplicate
detection against the single candidate, then link a red leaf and fix up.
The returned iterator is abstracted to the key of the node it designates. -/
def insert_unique [LinearOrder α] (s : rb_tree α) (val : α) :
    Option (rb_tree α × α × Bool) :=
  match descend val s.root [] with
  | [] =>
    -- y == end_: `/* root */`
    (insert_fixup (.node .red .nil val .nil) []).map
      (fun t => (⟨t, some val, s.size_ + 1⟩, val, true))
  | fr :: rest =>
    match fr.dir with
    | .left =>  -- comp == true
      if s.begin_ = some fr.key then
        -- y == begin_: `/* begin */`
        (insert_fixup (.node .red .nil val .nil) (fr :: rest)).map
          (fun t => (⟨t, some val, s.size_ + 1⟩, val, true))
      else
        match walkPred rest with
        | none => none
        | some jk =>
          if jk < val then
            (insert_fixup (.node .red .nil val .nil) (fr :: rest)).map
              (fun t => (⟨t, s.begin_, s.size_ + 1⟩, val, true))
          else some (s, jk, false)  -- `/* duplicate */`: no mutation
    | .right =>  -- comp == false: j = y
      if fr.key < val then
        (insert_fixup (.node .red .nil val .nil) (fr :: rest)).map
          (fun t => (⟨t, s.begin_, s.size_ + 1⟩, val, true))
      else some (s, fr.key, false)  -- `/* duplicate */`

/-- `insert_unique(pos, val)`, the hinted insert: splice next to the hint when
`val` fits strictly between `prev_node(pos)` and `pos` (with the begin/end
boundary cases), otherwise fall back to the search form. -/
def insert_unique_pos [LinearOrder α] (s : rb_tree α) (pos : Option (Zip α))
    (val : α) : Option (rb_tree α × α) :=
  match pos with
  | none =>  -- pos == end_
    match s.begin_ with
    | none =>
      -- pos == begin_: the tree is empty: `/* root */`
      (insert_fixup (.node .red .nil val .nil) []).map
        (fun t => (⟨t, some val, s.size_ + 1⟩, val))
    | some _ =>
      match prevOfEnd s.root with
      | none => none  -- prev_node(end_) on an empty tree follows a null root
      | some prev =>
        if prev.key < val then
          -- correct hint: the rightmost node has no right child
          (insert_fixup (.node .red .nil val .nil)
              (⟨.right, prev.color, prev.key, prev.l⟩ :: prev.ctx)).map
            (fun t => (⟨t, s.begin_, s.size_ + 1⟩, val))
        else
          (insert_unique s val).map (fun r => (r.1, r.2.1))
  | some pz =>
    if s.begin_ = some pz.key then
      -- pos == begin_
      if val < pz.key then
        (insert_fixup (.node .red .nil val .nil)
            (⟨.left, pz.color, pz.key, pz.r⟩ :: pz.ctx)).map
          (fun t => (⟨t, some val, s.size_ + 1⟩, val))
      else
        (insert_unique s val).map (fun r => (r.1, r.2.1))
    else
      match prev_node pz with
      | none => none  -- prev is `end_`: the source reads its uninitialized value
      | some prev =>
        if prev.key < val ∧ val < pz.key then
          -- correct hint: prev < val < pos
          if prev.r = .nil then
            (insert_fixup (.node .red .nil val .nil)
                (⟨.right, prev.color, prev.key, prev.l⟩ :: prev.ctx)).map
              (fun t => (⟨t, s.begin_, s.size_ + 1⟩, val))
          else
            -- prev has a right child, so pos->left is null: `pos->left = z`
            (insert_fixup (.node .red .nil val .nil)
                (⟨.left, pz.color, pz.key, pz.r⟩ :: pz.ctx)).map
              (fun t => (⟨t, s.begin_, s.size_ + 1⟩, val))
        else
          (insert_unique s val).map (fun r => (r.1, r.2.1))

/-- The recursive deep clone `copy_tree(src, dst)`: children are recreated with
the same values and colors, so in the model a cloned subtree is the subtree
itself; the recursion structure is kept. -/
def copy_tree_rec : Tree α → Tree α
  | .nil => .nil
  | .node c l k r => .node c (copy_tree_rec l) k (copy_tree_rec r)

/-- `copy_tree(other)`, the copy-construction work horse: copy `size_`, clone
from the root when it is non-null, then recompute the begin cache as
`min_node(root())` — unconditionally, also when the new root is still the null
pointer. -/
def copy_tree (other : rb_tree α) : Option (rb_tree α) :=
  (min_node (copy_tree_rec other.root) []).map
    (fun b => ⟨copy_tree_rec other.root, some b.key, other.size_⟩)

/-- One user-level operation of a test sequence: `insert(v)` or `erase(v)`. -/
inductive Op (α : Type) where
  | ins (v : α)
  | del (v : α)

/-- Run one operation, keeping only the container state. -/
def runOp [LinearOrder α] (s : rb_tree α) : Op α → Option (rb_tree α)
  | .ins v => (insert_unique s v).map (fun r => r.1)
  | .del v => (erase_unique s v).map (fun r => r.1)

/-- Run a whole operation sequence from a starting container. -/
def runOps [LinearOrder α] : rb_tree α → List (Op α) → Option (rb_tree α)
  | s, [] => some s
  | s, op :: rest =>
    match runOp s op with
    | none => none
    | some s1 => runOps s1 rest

/-- Forward iteration: collect the keys seen by repeated `operator++` until
`end()` is reached (or the fuel runs out). -/
def iterFwd : Nat → Option (Zip α) → List α
  | 0, _ => []
  | _ + 1, none => []
  | fuel + 1, some z => z.key :: iterFwd fuel (next_node z)

/-- Backward iteration: collect the keys seen by repeated `operator--` starting
from the last real node, `prev_node(end_)`. -/
def iterBwd : Nat → Option (Zip α) → List α
  | 0, _ => []
  | _ + 1, none => []
  | fuel + 1, some z => z.key :: iterBwd fuel (prev_node z)

/-- Executable check of the balance invariants, returning root color and black
height; equivalent to `Bal` (see `balCheck_sound`). -/
def balCheck : Tree α → Option (Color × Nat)
  | .nil => some (.black, 0)
  | .node c l _ r =>
    match balCheck l, balCheck r with
    | some (cl, nl), some (cr, nr) =>
      if nl = nr then
        match c with
        | .red => if cl = .black ∧ cr = .black then some (.red, nl) else none
        | .black => some (.black, nl + 1)
      else none
    | _, _ => none

/-- The container `{1, 3, 5, 7, 9}` of the spec's bound-query scenarios, built
by five insertions. -/
def s13579 : rb_tree Int :=
  (runOps rb_tree.mkEmpty [.ins 1, .ins 3, .ins 5, .ins 7, .ins 9]).getD
    rb_tree.mkEmpty

/-- The container `{10}` of the spec's duplicate-insert scenario. -/
def s10 : rb_tree Int :=
  (runOps rb_tree.mkEmpty [.ins 10]).getD rb_tree.mkEmpty

theorem fill_left (c : Color) (k : α) (s t : Tree α) :
    fill ⟨.left, c, k, s⟩ t = .node c t k s := rfl

theorem fill_right (c : Color) (k : α) (s t : Tree α) :
    fill ⟨.right, c, k, s⟩ t = .node c s k t := rfl

theorem Tree.inorder_setBlackRoot (t : Tree α) :
    t.setBlackRoot.inorder = t.inorder := by
  cases t <;> rfl

theorem Bal.setBlackRoot {t : Tree α} {c : Color} {n : Nat} (h : Bal t c n) :
    ∃ n', Bal t.setBlackRoot .black n' := by
  cases h with
  | nil => exact ⟨0, .nil⟩
  | red hl hr => exact ⟨_, .black hl hr⟩
  | black hl hr => exact ⟨_, .black hl hr⟩

theorem Bal.setBlackRoot_red {t : Tree α} {n : Nat} (h : Bal t .red n) :
    Bal t.setBlackRoot .black (n + 1) := by
  cases h with
  | red hl hr => exact .black hl hr

theorem Tree.isRed_iff (t : Tree α) : t.isRed = true ↔ t.rootColor = .red := by
  cases t with
  | nil => simp [Tree.isRed, Tree.rootColor]
  | node c l k r => cases c <;> simp [Tree.isRed, Tree.rootColor]

theorem inorder_plug_congr {s t : Tree α} (h : s.inorder = t.inorder)
    (ctx : Ctx α) : (plug s ctx).inorder = (plug t ctx).inorder := by
  simp [inorder_plug, h]

theorem Tree.rootColor_node (c : Color) (l : Tree α) (k : α) (r : Tree α) :
    (Tree.node c l k r).rootColor = c := rfl

/-- Loop invariant of `insert_fixup`: the parent chain either legitimately
accepts the red focus, or it starts with a red frame — the single red-red
violation — whose own slot accepts a red subtree. -/
def InsInv (ctx : Ctx α) (n : Nat) (n₀ : Nat) : Prop :=
  ctx = [] ∨ CtxBal ctx .red n .black n₀ ∨
    ∃ fr rest, ctx = fr :: rest ∧ fr.color = .red ∧
      Bal fr.sib .black n ∧ CtxBal rest .red n .black n₀

theorem InsInv.of_black {ctx : Ctx α} {m n₀ : Nat}
    (h : CtxBal ctx .black m .black n₀) : InsInv ctx m n₀ := by
  cases h with
  | root => exact .inl rfl
  | redL hs hrest => exact .inr (.inr ⟨_, _, rfl, rfl, hs, hrest⟩)
  | redR hs hrest => exact .inr (.inr ⟨_, _, rfl, rfl, hs, hrest⟩)
  | blackL hs hrest => exact .inr (.inl (.blackL hs hrest))
  | blackR hs hrest => exact .inr (.inl (.blackR hs hrest))

/-- `insert_fixup`'s loop terminates with a balanced black-rooted tree whose
in-order sequence is that of the linked tree, given the loop invariant. -/
theorem insfix_spec {n₀ : Nat} :
    ∀ (fuel : Nat) (z : Tree α) (ctx : Ctx α) (n : Nat),
      ctx.length + 2 ≤ fuel → Bal z .red n → InsInv ctx n n₀ →
      ∃ t' n', insfix fuel z ctx = some t' ∧ Bal t' .black n' ∧
        t'.inorder = (plug z ctx).inorder := by
  intro fuel
  induction fuel with
  | zero => intro z ctx n hf _ _; omega
  | succ fuel ih =>
    intro z ctx n hf hz hinv
    match ctx, hinv with
    | [], _ =>
      exact ⟨z.setBlackRoot, n + 1, rfl, hz.setBlackRoot_red,
        Tree.inorder_setBlackRoot z⟩
    | ⟨d, .black, k, s⟩ :: rest, hinv =>
      rcases hinv with h | hctx | ⟨fr', rest', he, hcol, _, _⟩
      · cases h
      · obtain ⟨n', hbal⟩ := (hctx.fill_bal hz).setBlackRoot
        exact ⟨_, n', rfl, hbal,
          (Tree.inorder_setBlackRoot _)⟩
      · cases he; cases hcol
    | ⟨d, .red, k, s⟩ :: rest, hinv =>
      have hvio : Bal (Frame.sib ⟨d, .red, k, s⟩) .black n ∧
          CtxBal rest .red n .black n₀ := by
        rcases hinv with h | hctx | ⟨fr', rest', he, hcol, hs, hrest⟩
        · cases h
        · cases hctx
        · cases he; exact ⟨hs, hrest⟩
      obtain ⟨hs, hrest⟩ := hvio
      match rest, hrest with
      | ⟨.left, .black, gk, gs⟩ :: rest', CtxBal.blackL hu hrest' =>
        by_cases hired : gs.isRed = true
        · -- red uncle: recolor parent, uncle and grandparent, climb two levels
          have hcu : Bal gs .red n := by
            have h1 := hu.rootColor_eq
            rw [(Tree.isRed_iff gs).mp hired] at h1
            exact h1 ▸ hu
          have hp : Bal (fill ⟨d, .black, k, s⟩ z) .black (n + 1) := by
            cases d
            · exact .black hz hs
            · exact .black hs hz
          obtain ⟨t', n', he, hbal, hio⟩ :=
            ih (fill ⟨.left, .red, gk, gs.setBlackRoot⟩ (fill ⟨d, .black, k, s⟩ z))
              rest' (n + 1) (by simp at hf ⊢; omega)
              (.red hp hcu.setBlackRoot_red) (InsInv.of_black hrest')
          refine ⟨t', n', ?_, hbal, ?_⟩
          · rw [show insfix (fuel + 1) z
                  (⟨d, .red, k, s⟩ :: ⟨.left, .black, gk, gs⟩ :: rest')
                = insfix fuel
                  (fill ⟨.left, .red, gk, gs.setBlackRoot⟩ (fill ⟨d, .black, k, s⟩ z))
                  rest' from by simp [insfix, hired]]
            exact he
          · rw [hio]
            show (plug _ rest').inorder =
              (plug (fill ⟨.left, .black, gk, gs⟩ (fill ⟨d, .red, k, s⟩ z)) rest').inorder
            refine inorder_plug_congr ?_ rest'
            cases d <;>
              simp [fill, Tree.inorder, Tree.inorder_setBlackRoot, List.append_assoc]
        · -- black (or null) uncle: rotate at the grandparent and finish
          have hcu : Bal gs .black n := by
            have h1 := hu.rootColor_eq
            have h2 : gs.rootColor = .black := by
              cases h3 : gs.rootColor
              · exact absurd ((Tree.isRed_iff gs).mpr h3) hired
              · rfl
            rw [h2] at h1
            exact h1 ▸ hu
          cases d with
          | left =>
            obtain ⟨t', n', he, hbal, hio⟩ :=
              ih z (⟨.left, .black, k, .node .red s gk gs⟩ :: rest') n
                (by simp at hf ⊢; omega) hz
                (.inr (.inl (.blackL (.red hs hcu) hrest')))
            refine ⟨t', n', ?_, hbal, ?_⟩
            · rw [show insfix (fuel + 1) z
                    (⟨.left, .red, k, s⟩ :: ⟨.left, .black, gk, gs⟩ :: rest')
                  = insfix fuel z (⟨.left, .black, k, .node .red s gk gs⟩ :: rest')
                  from by simp [insfix, hired]]
              exact he
            · rw [hio]
              show (plug (fill ⟨.left, .black, k, .node .red s gk gs⟩ z) rest').inorder =
                (plug (fill ⟨.left, .black, gk, gs⟩ (fill ⟨.left, .red, k, s⟩ z)) rest').inorder
              refine inorder_plug_congr ?_ rest'
              simp [fill, Tree.inorder, List.append_assoc]
          | right =>
            match z, hz with
            | .node _ za zk zb, Bal.red hza hzb =>
              obtain ⟨t', n', he, hbal, hio⟩ :=
                ih (.node .red s k za)
                  (⟨.left, .black, zk, .node .red zb gk gs⟩ :: rest') n
                  (by simp at hf ⊢; omega) (.red hs hza)
                  (.inr (.inl (.blackL (.red hzb hcu) hrest')))
              refine ⟨t', n', ?_, hbal, ?_⟩
              · rw [show insfix (fuel + 1) (.node .red za zk zb)
                      (⟨.right, .red, k, s⟩ :: ⟨.left, .black, gk, gs⟩ :: rest')
                    = insfix fuel (.node .red s k za)
                      (⟨.left, .black, zk, .node .red zb gk gs⟩ :: rest')
                    from by simp [insfix, hired]]
                exact he
              · rw [hio]
                show (plug (fill ⟨.left, .black, zk, .node .red zb gk gs⟩
                    (.node .red s k za)) rest').inorder =
                  (plug (fill ⟨.left, .black, gk, gs⟩
                    (fill ⟨.right, .red, k, s⟩ (.node .red za zk zb))) rest').inorder
                refine inorder_plug_congr ?_ rest'
                simp [fill, Tree.inorder, List.append_assoc]
      | ⟨.right, .black, gk, gs⟩ :: rest', CtxBal.blackR hu hrest' =>
        by_cases hired : gs.isRed = true
        · -- red uncle, mirrored
          have hcu : Bal gs .red n := by
            have h1 := hu.rootColor_eq
            rw [(Tree.isRed_iff gs).mp hired] at h1
            exact h1 ▸ hu
          have hp : Bal (fill ⟨d, .black, k, s⟩ z) .black (n + 1) := by
            cases d
            · exact .black hz hs
            · exact .black hs hz
          obtain ⟨t', n', he, hbal, hio⟩ :=
            ih (fill ⟨.right, .red, gk, gs.setBlackRoot⟩ (fill ⟨d, .black, k, s⟩ z))
              rest' (n + 1) (by simp at hf ⊢; omega)
              (.red hcu.setBlackRoot_red hp) (InsInv.of_black hrest')
          refine ⟨t', n', ?_, hbal, ?_⟩
          · rw [show insfix (fuel + 1) z
                  (⟨d, .red, k, s⟩ :: ⟨.right, .black, gk, gs⟩ :: rest')
                = insfix fuel
                  (fill ⟨.right, .red, gk, gs.setBlackRoot⟩ (fill ⟨d, .black, k, s⟩ z))
                  rest' from by simp [insfix, hired]]
            exact he
          · rw [hio]
            show (plug _ rest').inorder =
              (plug (fill ⟨.right, .black, gk, gs⟩ (fill ⟨d, .red, k, s⟩ z)) rest').inorder
            refine inorder_plug_congr ?_ rest'
            cases d <;>
              simp [fill, Tree.inorder, Tree.inorder_setBlackRoot, List.append_assoc]
        · -- black (or null) uncle, mirrored
          have hcu : Bal gs .black n := by
            have h1 := hu.rootColor_eq
            have h2 : gs.rootColor = .black := by
              cases h3 : gs.rootColor
              · exact absurd ((Tree.isRed_iff gs).mpr h3) hired
              · rfl
            rw [h2] at h1
            exact h1 ▸ hu
          cases d with
          | right =>
            obtain ⟨t', n', he, hbal, hio⟩ :=
              ih z (⟨.right, .black, k, .node .red gs gk s⟩ :: rest') n
                (by simp at hf ⊢; omega) hz
                (.inr (.inl (.blackR (.red hcu hs) hrest')))
            refine ⟨t', n', ?_, hbal, ?_⟩
            · rw [show insfix (fuel + 1) z
                    (⟨.right, .red, k, s⟩ :: ⟨.right, .black, gk, gs⟩ :: rest')
                  = insfix fuel z (⟨.right, .black, k, .node .red gs gk s⟩ :: rest')
                  from by simp [insfix, hired]]
              exact he
            · rw [hio]
              show (plug (fill ⟨.right, .black, k, .node .red gs gk s⟩ z) rest').inorder =
                (plug (fill ⟨.right, .black, gk, gs⟩ (fill ⟨.right, .red, k, s⟩ z)) rest').inorder
              refine inorder_plug_congr ?_ rest'
              simp [fill, Tree.inorder, List.append_assoc]
          | left =>
            match z, hz with
            | .node _ za zk zb, Bal.red hza hzb =>
              obtain ⟨t', n', he, hbal, hio⟩ :=
                ih (.node .red zb k s)
                  (⟨.right, .black, zk, .node .red gs gk za⟩ :: rest') n
                  (by simp at hf ⊢; omega) (.red hzb hs)
                  (.inr (.inl (.blackR (.red hcu hza) hrest')))
              refine ⟨t', n', ?_, hbal, ?_⟩
              · rw [show insfix (fuel + 1) (.node .red za zk zb)
                      (⟨.left, .red, k, s⟩ :: ⟨.right, .black, gk, gs⟩ :: rest')
                    = insfix fuel (.node .red zb k s)
                      (⟨.right, .black, zk, .node .red gs gk za⟩ :: rest')
                    from by simp [insfix, hired]]
                exact he
              · rw [hio]
                show (plug (fill ⟨.right, .black, zk, .node .red gs gk za⟩
                    (.node .red zb k s)) rest').inorder =
                  (plug (fill ⟨.right, .black, gk, gs⟩
                    (fill ⟨.left, .red, k, s⟩ (.node .red za zk zb))) rest').inorder
                refine inorder_plug_congr ?_ rest'
                simp [fill, Tree.inorder, List.append_assoc]

theorem insert_fixup_spec {z : Tree α} {ctx : Ctx α} {n n₀ : Nat}
    (hz : Bal z .red n) (hinv : InsInv ctx n n₀) :
    ∃ t' n', insert_fixup z ctx = some t' ∧ Bal t' .black n' ∧
      t'.inorder = (plug z ctx).inorder := by
  have hsr : z.setRedRoot = z := by cases hz; rfl
  unfold insert_fixup
  rw [hsr]
  exact insfix_spec _ z ctx n (by omega) hz hinv

theorem CtxBal.recolor_of_black {ctx : Ctx α} {m n₀ : Nat}
    (h : CtxBal ctx .red m .black n₀) (c' : Color) : CtxBal ctx c' m .black n₀ := by
  cases h with
  | blackL hs hrest => exact .blackL hs hrest
  | blackR hs hrest => exact .blackR hs hrest

/-- When the loop condition of `erase_fixup` sees a real red `x`, the loop
exits and `x` is blackened in place. -/
theorem erafix_red_step {P : Tree α} {ctx : Ctx α} {f : Nat}
    (h : P.isRed = true) : erafix (f + 1) P ctx = some (plug P.setBlackRoot ctx) := by
  cases ctx with
  | nil => simp [erafix, plug]
  | cons fr rest => simp [erafix, h]

/-- One `erase_fixup` iteration after the possible red-sibling rotation: `x`
carries a one-black deficit against the slot `⟨fd, fc, fk, w⟩ :: rest` expects,
and `w` is a black-rooted real sibling. -/
theorem erafixTail_spec {n₀ : Nat} (fuel : Nat) (x : Tree α)
    (fd : Dir) (fc : Color) (fk : α) (w : Tree α) (rest : Ctx α) (n : Nat)
    (h1 : 1 ≤ fuel) (hfc : fc = .black → rest.length + 2 ≤ fuel)
    (hx : Bal x .black n) (hw : Bal w .black (n + 1))
    (hup : CtxBal (⟨fd, fc, fk, w⟩ :: rest) .black (n + 1) .black n₀)
    (IH : ∀ (x : Tree α) (ctx : Ctx α) (cx c : Color) (m : Nat),
      ctx.length + 2 ≤ fuel → Bal x cx m → CtxBal ctx c (m + 1) .black n₀ →
      ∃ t' n', erafix fuel x ctx = some t' ∧ Bal t' .black n' ∧
        t'.inorder = (plug x ctx).inorder) :
    ∃ t' n', erafixTail fuel x ⟨fd, fc, fk, w⟩ rest = some t' ∧
      Bal t' .black n' ∧ t'.inorder = (plug x (⟨fd, fc, fk, w⟩ :: rest)).inorder := by
  obtain ⟨f₂, rfl⟩ : ∃ f₂, fuel = f₂ + 1 := ⟨fuel - 1, by omega⟩
  cases hw with
  | black hwl hwr =>
    rename_i wl wr wk ca cb
    cases fd with
    | left =>
      by_cases h2 : wl.rootColor = .black ∧ wr.rootColor = .black
      · -- both of w's children black: recolor w red and move the deficit up
        have hwl' : Bal wl .black n := (hwl.rootColor_eq.symm.trans h2.1) ▸ hwl
        have hwr' : Bal wr .black n := (hwr.rootColor_eq.symm.trans h2.2) ▸ hwr
        have hw' : Bal (Tree.node .red wl wk wr) .red n := .red hwl' hwr'
        rw [show erafixTail (f₂ + 1) x ⟨.left, fc, fk, .node .black wl wk wr⟩ rest
            = erafix (f₂ + 1) (fill ⟨.left, fc, fk, .node .red wl wk wr⟩ x) rest
            from by simp [erafixTail, h2]]
        cases fc with
        | red =>
          cases hup with
          | redL hsib hrest =>
            rw [fill_left, erafix_red_step (by simp [Tree.isRed])]
            refine ⟨_, n₀, rfl,
              ((hrest.recolor_of_black .black).fill_bal
                (.black hx hw' : Bal (Tree.node .black x fk (.node .red wl wk wr))
                  .black (n + 1))), ?_⟩
            refine inorder_plug_congr ?_ rest
            simp [Tree.setBlackRoot, fill, Tree.inorder]
        | black =>
          cases hup with
          | blackL hsib hrest =>
            obtain ⟨t', n', he, hbal, hio⟩ :=
              IH (fill ⟨.left, .black, fk, .node .red wl wk wr⟩ x) rest .black .black
                (n + 1) (hfc rfl) (by rw [fill_left]; exact .black hx hw') hrest
            refine ⟨t', n', he, hbal, ?_⟩
            rw [hio]
            refine inorder_plug_congr ?_ rest
            simp [fill, Tree.inorder]
      · by_cases h3 : wr.rootColor = .black
        · -- near child red, far child black: double rotation case
          have hca : ca = .red := by
            rcases h4 : wl.rootColor with h5 | h5
            · exact (hwl.rootColor_eq.symm.trans h4) ▸ rfl
            · exact absurd ⟨h4, h3⟩ h2
          subst hca
          have hwr' : Bal wr .black n := (hwr.rootColor_eq.symm.trans h3) ▸ hwr
          cases hwl with
          | red ha1 ha2 =>
            rename_i a1 a2 aj
            rw [show erafixTail (f₂ + 1) x ⟨.left, fc, fk, .node .black (.node .red a1 aj a2) wk wr⟩ rest
                = erafixFinal x ⟨.left, fc, fk,
                    .node .black a1 aj (.node .red a2 wk wr)⟩ rest
                from by simp [erafixTail, h2, h3, Tree.rootColor_node]]
            have hL : Bal (Tree.node .black x fk a1) .black (n + 1) := .black hx ha1
            have hR : Bal (Tree.node .black a2 wk wr) .black (n + 1) := .black ha2 hwr'
            cases fc with
            | red =>
              cases hup with
              | redL hsib hrest =>
                have hS : Bal (Tree.node .red (Tree.node .black x fk a1) aj
                    (Tree.node .black a2 wk wr)) .red (n + 1) := .red hL hR
                obtain ⟨n', hbal⟩ := (hrest.fill_bal hS).setBlackRoot
                refine ⟨_, n', by simp [erafixFinal, Tree.setBlackRoot], hbal, ?_⟩
                rw [Tree.inorder_setBlackRoot]
                refine inorder_plug_congr ?_ rest
                simp [fill, Tree.inorder, Tree.setBlackRoot, List.append_assoc]
            | black =>
              cases hup with
              | blackL hsib hrest =>
                have hS : Bal (Tree.node .black (Tree.node .black x fk a1) aj
                    (Tree.node .black a2 wk wr)) .black (n + 2) := .black hL hR
                obtain ⟨n', hbal⟩ := (hrest.fill_bal hS).setBlackRoot
                refine ⟨_, n', by simp [erafixFinal, Tree.setBlackRoot], hbal, ?_⟩
                rw [Tree.inorder_setBlackRoot]
                refine inorder_plug_congr ?_ rest
                simp [fill, Tree.inorder, Tree.setBlackRoot, List.append_assoc]
        · -- far child red: single rotation case
          have hcb : cb = .red := by
            rcases h4 : wr.rootColor with h5 | h5
            · exact (hwr.rootColor_eq.symm.trans h4) ▸ rfl
            · exact absurd h4 h3
          subst hcb
          rw [show erafixTail (f₂ + 1) x ⟨.left, fc, fk, .node .black wl wk wr⟩ rest
              = erafixFinal x ⟨.left, fc, fk, .node .black wl wk wr⟩ rest
              from by simp [erafixTail, h2, h3, Tree.rootColor_node]]
          have hL : Bal (Tree.node .black x fk wl) .black (n + 1) := .black hx hwl
          have hR : Bal wr.setBlackRoot .black (n + 1) := hwr.setBlackRoot_red
          cases fc with
          | red =>
            cases hup with
            | redL hsib hrest =>
              have hS : Bal (Tree.node .red (Tree.node .black x fk wl) wk
                  wr.setBlackRoot) .red (n + 1) := .red hL hR
              obtain ⟨n', hbal⟩ := (hrest.fill_bal hS).setBlackRoot
              refine ⟨_, n', by simp [erafixFinal], hbal, ?_⟩
              rw [Tree.inorder_setBlackRoot]
              refine inorder_plug_congr ?_ rest
              simp [fill, Tree.inorder, Tree.inorder_setBlackRoot, List.append_assoc]
          | black =>
            cases hup with
            | blackL hsib hrest =>
              have hS : Bal (Tree.node .black (Tree.node .black x fk wl) wk
                  wr.setBlackRoot) .black (n + 2) := .black hL hR
              obtain ⟨n', hbal⟩ := (hrest.fill_bal hS).setBlackRoot
              refine ⟨_, n', by simp [erafixFinal], hbal, ?_⟩
              rw [Tree.inorder_setBlackRoot]
              refine inorder_plug_congr ?_ rest
              simp [fill, Tree.inorder, Tree.inorder_setBlackRoot, List.append_assoc]
    | right =>
      by_cases h2 : wl.rootColor = .black ∧ wr.rootColor = .black
      · have hwl' : Bal wl .black n := (hwl.rootColor_eq.symm.trans h2.1) ▸ hwl
        have hwr' : Bal wr .black n := (hwr.rootColor_eq.symm.trans h2.2) ▸ hwr
        have hw' : Bal (Tree.node .red wl wk wr) .red n := .red hwl' hwr'
        rw [show erafixTail (f₂ + 1) x ⟨.right, fc, fk, .node .black wl wk wr⟩ rest
            = erafix (f₂ + 1) (fill ⟨.right, fc, fk, .node .red wl wk wr⟩ x) rest
            from by simp [erafixTail, h2]]
        cases fc with
        | red =>
          cases hup with
          | redR hsib hrest =>
            rw [fill_right, erafix_red_step (by simp [Tree.isRed])]
            refine ⟨_, n₀, rfl,
              ((hrest.recolor_of_black .black).fill_bal
                (.black hw' hx : Bal (Tree.node .black (.node .red wl wk wr) fk x)
                  .black (n + 1))), ?_⟩
            refine inorder_plug_congr ?_ rest
            simp [Tree.setBlackRoot, fill, Tree.inorder]
        | black =>
          cases hup with
          | blackR hsib hrest =>
            obtain ⟨t', n', he, hbal, hio⟩ :=
              IH (fill ⟨.right, .black, fk, .node .red wl wk wr⟩ x) rest .black .black
                (n + 1) (hfc rfl) (by rw [fill_right]; exact .black hw' hx) hrest
            refine ⟨t', n', he, hbal, ?_⟩
            rw [hio]
            refine inorder_plug_congr ?_ rest
            simp [fill, Tree.inorder]
      · by_cases h3 : wl.rootColor = .black
        · -- near child red, far child black, mirrored double rotation
          have hcb : cb = .red := by
            rcases h4 : wr.rootColor with h5 | h5
            · exact (hwr.rootColor_eq.symm.trans h4) ▸ rfl
            · exact absurd ⟨h3, h4⟩ h2
          subst hcb
          have hwl' : Bal wl .black n := (hwl.rootColor_eq.symm.trans h3) ▸ hwl
          cases hwr with
          | red ha1 ha2 =>
            rename_i a1 a2 aj
            rw [show erafixTail (f₂ + 1) x ⟨.right, fc, fk, .node .black wl wk (.node .red a1 aj a2)⟩ rest
                = erafixFinal x ⟨.right, fc, fk,
                    .node .black (.node .red wl wk a1) aj a2⟩ rest
                from by simp [erafixTail, h2, h3, Tree.rootColor_node]]
            have hL : Bal (Tree.node .black wl wk a1) .black (n + 1) := .black hwl' ha1
            have hR : Bal (Tree.node .black a2 fk x) .black (n + 1) := .black ha2 hx
            cases fc with
            | red =>
              cases hup with
              | redR hsib hrest =>
                have hS : Bal (Tree.node .red (Tree.node .black wl wk a1) aj
                    (Tree.node .black a2 fk x)) .red (n + 1) := .red hL hR
                obtain ⟨n', hbal⟩ := (hrest.fill_bal hS).setBlackRoot
                refine ⟨_, n', by simp [erafixFinal, Tree.setBlackRoot], hbal, ?_⟩
                rw [Tree.inorder_setBlackRoot]
                refine inorder_plug_congr ?_ rest
                simp [fill, Tree.inorder, Tree.setBlackRoot, List.append_assoc]
            | black =>
              cases hup with
              | blackR hsib hrest =>
                have hS : Bal (Tree.node .black (Tree.node .black wl wk a1) aj
                    (Tree.node .black a2 fk x)) .black (n + 2) := .black hL hR
                obtain ⟨n', hbal⟩ := (hrest.fill_bal hS).setBlackRoot
                refine ⟨_, n', by simp [erafixFinal, Tree.setBlackRoot], hbal, ?_⟩
                rw [Tree.inorder_setBlackRoot]
                refine inorder_plug_congr ?_ rest
                simp [fill, Tree.inorder, Tree.setBlackRoot, List.append_assoc]
        · -- far child red, mirrored single rotation
          have hca : ca = .red := by
            rcases h4 : wl.rootColor with h5 | h5
            · exact (hwl.rootColor_eq.symm.trans h4) ▸ rfl
            · exact absurd h4 h3
          subst hca
          rw [show erafixTail (f₂ + 1) x ⟨.right, fc, fk, .node .black wl wk wr⟩ rest
              = erafixFinal x ⟨.right, fc, fk, .node .black wl wk wr⟩ rest
              from by simp [erafixTail, h2, h3, Tree.rootColor_node]]
          have hL : Bal wl.setBlackRoot .black (n + 1) := hwl.setBlackRoot_red
          have hR : Bal (Tree.node .black wr fk x) .black (n + 1) := .black hwr hx
          cases fc with
          | red =>
            cases hup with
            | redR hsib hrest =>
              have hS : Bal (Tree.node .red wl.setBlackRoot wk
                  (Tree.node .black wr fk x)) .red (n + 1) := .red hL hR
              obtain ⟨n', hbal⟩ := (hrest.fill_bal hS).setBlackRoot
              refine ⟨_, n', by simp [erafixFinal], hbal, ?_⟩
              rw [Tree.inorder_setBlackRoot]
              refine inorder_plug_congr ?_ rest
              simp [fill, Tree.inorder, Tree.inorder_setBlackRoot, List.append_assoc]
          | black =>
            cases hup with
            | blackR hsib hrest =>
              have hS : Bal (Tree.node .black wl.setBlackRoot wk
                  (Tree.node .black wr fk x)) .black (n + 2) := .black hL hR
              obtain ⟨n', hbal⟩ := (hrest.fill_bal hS).setBlackRoot
              refine ⟨_, n', by simp [erafixFinal], hbal, ?_⟩
              rw [Tree.inorder_setBlackRoot]
              refine inorder_plug_congr ?_ rest
              simp [fill, Tree.inorder, Tree.inorder_setBlackRoot, List.append_assoc]

/-- `erase_fixup`'s loop terminates with a balanced black-rooted tree with the
same in-order sequence, whenever the focus is one black short of what its slot
expects. -/
theorem erafix_spec {n₀ : Nat} :
    ∀ (fuel : Nat) (x : Tree α) (ctx : Ctx α) (cx c : Color) (n : Nat),
      ctx.length + 2 ≤ fuel → Bal x cx n → CtxBal ctx c (n + 1) .black n₀ →
      ∃ t' n', erafix fuel x ctx = some t' ∧ Bal t' .black n' ∧
        t'.inorder = (plug x ctx).inorder := by
  intro fuel
  induction fuel with
  | zero => intro x ctx cx c n hf _ _; omega
  | succ fuel ih =>
    intro x ctx cx c n hf hx hctx
    cases ctx with
    | nil =>
      obtain ⟨n', hb⟩ := hx.setBlackRoot
      exact ⟨x.setBlackRoot, n', by simp [erafix], hb, Tree.inorder_setBlackRoot x⟩
    | cons fr rest =>
      by_cases hxr : x.isRed = true
      · -- x is a real red node: the loop exits and blackens it in place
        have hcx : cx = .red := hx.rootColor_eq.symm.trans ((Tree.isRed_iff x).mp hxr)
        subst hcx
        have hctx' : CtxBal (fr :: rest) .black (n + 1) .black n₀ := by
          cases c
          · exact hctx.recolor_of_black .black
          · exact hctx
        refine ⟨_, n₀, by simp [erafix, hxr], hctx'.fill_bal hx.setBlackRoot_red, ?_⟩
        exact inorder_plug_congr (Tree.inorder_setBlackRoot x) (fr :: rest)
      · have hcx : cx = .black := by
          cases h3 : x.rootColor with
          | red => exact absurd ((Tree.isRed_iff x).mpr h3) hxr
          | black => exact (hx.rootColor_eq.symm.trans h3).symm ▸ rfl
        subst hcx
        have hf1 : 1 ≤ fuel := by simp at hf; omega
        have hf2 : rest.length + 2 ≤ fuel := by simp at hf; omega
        cases hctx with
        | redL hw hrest =>
          -- fr = ⟨.left, .red, fk, w⟩: w is black-rooted, no red-sibling step
          rename_i fk w
          cases hw with
          | black hwl hwr =>
            rename_i wl wr wk ca cb
            obtain ⟨t', n', he, hb, hio⟩ :=
              erafixTail_spec fuel x .left .red fk (.node .black wl wk wr) rest n
                hf1 (by intro h; cases h) hx (.black hwl hwr)
                (.redL (.black hwl hwr) hrest) ih
            exact ⟨t', n', by simp [erafix, hxr]; exact he, hb, hio⟩
        | blackL hw hrest =>
          rename_i fk w c₂
          cases h4 : w.rootColor with
          | red =>
            -- red sibling: recolor and rotate at xparent, then continue
            have hw' : Bal w .red (n + 1) := (hw.rootColor_eq.symm.trans h4) ▸ hw
            cases hw' with
            | red hwl hwr =>
              rename_i wl wr wk
              obtain ⟨t', n', he, hb, hio⟩ :=
                erafixTail_spec fuel x .left .red fk wl
                  (⟨.left, .black, wk, wr⟩ :: rest) n hf1 (by intro h; cases h)
                  hx hwl (.redL hwl (.blackL hwr hrest)) ih
              refine ⟨t', n', by simp [erafix, hxr]; exact he, hb, ?_⟩
              rw [hio]
              simp only [plug]
              refine inorder_plug_congr ?_ rest
              simp [fill, Tree.inorder, List.append_assoc]
          | black =>
            have hw' : Bal w .black (n + 1) := (hw.rootColor_eq.symm.trans h4) ▸ hw
            cases hw' with
            | black hwl hwr =>
              rename_i wl wr wk ca cb
              obtain ⟨t', n', he, hb, hio⟩ :=
                erafixTail_spec fuel x .left .black fk (.node .black wl wk wr) rest n
                  hf1 (fun _ => hf2) hx (.black hwl hwr)
                  (.blackL (.black hwl hwr) hrest) ih
              exact ⟨t', n', by simp [erafix, hxr]; exact he, hb, hio⟩
        | redR hw hrest =>
          rename_i fk w
          cases hw with
          | black hwl hwr =>
            rename_i wl wr wk ca cb
            obtain ⟨t', n', he, hb, hio⟩ :=
              erafixTail_spec fuel x .right .red fk (.node .black wl wk wr) rest n
                hf1 (by intro h; cases h) hx (.black hwl hwr)
                (.redR (.black hwl hwr) hrest) ih
            exact ⟨t', n', by simp [erafix, hxr]; exact he, hb, hio⟩
        | blackR hw hrest =>
          rename_i fk w c₂
          cases h4 : w.rootColor with
          | red =>
            have hw' : Bal w .red (n + 1) := (hw.rootColor_eq.symm.trans h4) ▸ hw
            cases hw' with
            | red hwl hwr =>
              rename_i wl wr wk
              obtain ⟨t', n', he, hb, hio⟩ :=
                erafixTail_spec fuel x .right .red fk wr
                  (⟨.right, .black, wk, wl⟩ :: rest) n hf1 (by intro h; cases h)
                  hx hwr (.redR hwr (.blackR hwl hrest)) ih
              refine ⟨t', n', by simp [erafix, hxr]; exact he, hb, ?_⟩
              rw [hio]
              simp only [plug]
              refine inorder_plug_congr ?_ rest
              simp [fill, Tree.inorder, List.append_assoc]
          | black =>
            have hw' : Bal w .black (n + 1) := (hw.rootColor_eq.symm.trans h4) ▸ hw
            cases hw' with
            | black hwl hwr =>
              rename_i wl wr wk ca cb
              obtain ⟨t', n', he, hb, hio⟩ :=
                erafixTail_spec fuel x .right .black fk (.node .black wl wk wr) rest n
                  hf1 (fun _ => hf2) hx (.black hwl hwr)
                  (.blackR (.black hwl hwr) hrest) ih
              exact ⟨t', n', by simp [erafix, hxr]; exact he, hb, hio⟩

/-- `erase_fixup(x, xparent)` run with the standard fuel, for claims:
the focus carries a one-black deficit. -/
theorem erase_fixup_spec {x : Tree α} {ctx : Ctx α} {cx c : Color} {n n₀ : Nat}
    (hx : Bal x cx n) (hctx : CtxBal ctx c (n + 1) .black n₀) :
    ∃ t' n', erase_fixup x ctx = some t' ∧ Bal t' .black n' ∧
      t'.inorder = (plug x ctx).inorder :=
  erafix_spec _ x ctx cx c n (by omega) hx hctx

theorem walkPred_eq : ∀ ctx : Ctx α, walkPred ctx = (ctxLeft ctx).getLast? := by
  intro ctx
  induction ctx with
  | nil => rfl
  | cons fr rest ih =>
    rcases fr with ⟨d, c, k, s⟩
    cases d with
    | left => simpa [walkPred, ctxLeft] using ih
    | right =>
      show some k = (ctxLeft rest ++ s.inorder ++ [k]).getLast?
      rw [show ctxLeft rest ++ s.inorder ++ [k] = (ctxLeft rest ++ s.inorder) ++ [k]
          from by simp, List.getLast?_concat]

section OrderedLayer

variable [LinearOrder α]

/-- The full well-formedness invariant of a tree object: the balance
invariants (1-4), strict ordering (6), the begin cache (5) and `size_`. -/
structure WF (s : rb_tree α) : Prop where
  bal : ∃ n, Bal s.root .black n
  ord : s.root.inorder.Sorted (· < ·)
  beg : s.begin_ = s.root.inorder.head?
  siz : s.size_ = s.root.inorder.length

/-- Every frame the descent of `insert_unique` pushes records the comparison
made at that node: left ↔ `comp_(val, key)`, right ↔ `!comp_(val, key)`. -/
def DescOk (val : α) (ctx : Ctx α) : Prop :=
  ∀ fr ∈ ctx, (fr.dir = .left → val < fr.key) ∧ (fr.dir = .right → fr.key ≤ val)

theorem descend_plug (val : α) (t : Tree α) : ∀ ctx : Ctx α,
    plug .nil (descend val t ctx) = plug t ctx := by
  induction t with
  | nil => intro ctx; rfl
  | node c l k r ihl ihr =>
    intro ctx
    unfold descend
    by_cases h : val < k
    · rw [if_pos h]; exact ihl _
    · rw [if_neg h]; exact ihr _

theorem descend_ok (val : α) (t : Tree α) : ∀ ctx : Ctx α, DescOk val ctx →
    DescOk val (descend val t ctx) := by
  induction t with
  | nil => exact fun ctx h => h
  | node c l k r ihl ihr =>
    intro ctx h
    unfold descend
    by_cases hc : val < k
    · rw [if_pos hc]
      refine ihl _ ?_
      intro fr hfr
      rcases List.mem_cons.mp hfr with rfl | hfr
      · exact ⟨fun _ => hc, (fun hd => nomatch hd)⟩
      · exact h fr hfr
    · rw [if_neg hc]
      refine ihr _ ?_
      intro fr hfr
      rcases List.mem_cons.mp hfr with rfl | hfr
      · exact ⟨(fun hd => nomatch hd), fun _ => le_of_not_lt hc⟩
      · exact h fr hfr

theorem ctxRight_gt {val : α} : ∀ {ctx : Ctx α}, DescOk val ctx →
    (ctxRight ctx).Sorted (· < ·) → ∀ y ∈ ctxRight ctx, val < y := by
  intro ctx
  induction ctx with
  | nil => intro _ _ y hy; cases hy
  | cons fr rest ih =>
    rcases fr with ⟨d, c, k, s⟩
    cases d with
    | left =>
      intro hok hs y hy
      have hk : val < k := (hok _ (List.mem_cons_self _ _)).1 rfl
      rcases List.mem_cons.mp hy with rfl | hy2
      · exact hk
      · exact lt_trans hk (List.rel_of_sorted_cons hs y hy2)
    | right =>
      intro hok hs y hy
      exact ih (fun fr h => hok fr (List.mem_cons_of_mem _ h)) hs y hy

theorem ctxLeft_le {val : α} : ∀ {ctx : Ctx α}, DescOk val ctx →
    (ctxLeft ctx).Sorted (· < ·) → ∀ y ∈ ctxLeft ctx, y ≤ val := by
  intro ctx
  induction ctx with
  | nil => intro _ _ y hy; cases hy
  | cons fr rest ih =>
    rcases fr with ⟨d, c, k, s⟩
    cases d with
    | left =>
      intro hok hs y hy
      exact ih (fun fr h => hok fr (List.mem_cons_of_mem _ h)) hs y hy
    | right =>
      intro hok hs y hy
      have hk : k ≤ val := (hok _ (List.mem_cons_self _ _)).2 rfl
      have hl : ctxLeft (⟨Dir.right, c, k, s⟩ :: rest) =
          (ctxLeft rest ++ s.inorder) ++ [k] := by
        show ctxLeft rest ++ s.inorder ++ [k] = _
        simp [List.append_assoc]
      rw [hl] at hy hs
      have hy' := hy
      have hs' := hs
      rcases List.mem_append.mp hy' with hy2 | hy2
      · have hcross := (List.pairwise_append.mp hs').2.2
        exact le_trans (le_of_lt (hcross y hy2 k (List.mem_singleton_self k))) hk
      · rw [List.mem_singleton.mp hy2]; exact hk

theorem sorted_getLast_of_mem {l : List α} (hs : l.Sorted (· < ·)) {x : α}
    (hx : x ∈ l) (hub : ∀ y ∈ l, y ≤ x) : l.getLast? = some x := by
  induction l with
  | nil => cases hx
  | cons a l ih =>
    cases l with
    | nil => simp at hx; simp [hx]
    | cons b l2 =>
      rw [List.getLast?_cons_cons]
      rcases List.mem_cons.mp hx with rfl | hx2
      · have hb : x < b := List.rel_of_sorted_cons hs b (List.mem_cons_self b l2)
        have hxb := hub b (List.mem_cons_of_mem _ (List.mem_cons_self b l2))
        exact absurd hb (not_lt.mpr hxb)
      · exact ih hs.of_cons hx2 (fun y hy => hub y (List.mem_cons_of_mem _ hy))

theorem sorted_head_le {l : List α} (hs : l.Sorted (· < ·)) {m : α}
    (hm : l.head? = some m) : ∀ y ∈ l, m ≤ y := by
  cases l with
  | nil => cases hm
  | cons a l =>
    cases hm
    intro y hy
    rcases List.mem_cons.mp hy with rfl | hy2
    · exact le_refl y
    · exact le_of_lt (List.rel_of_sorted_cons hs y hy2)

theorem head?_append_left {β : Type} {l₁ l₂ : List β} {a : β}
    (h : l₁.head? = some a) : (l₁ ++ l₂).head? = some a := by
  cases l₁ with
  | nil => cases h
  | cons x xs => cases h; rfl

theorem sorted_mid {L R : List α} {v : α} (hso : (L ++ R).Sorted (· < ·))
    (hL : ∀ y ∈ L, y < v) (hR : ∀ y ∈ R, v < y) :
    (L ++ v :: R).Sorted (· < ·) := by
  obtain ⟨hsL, hsR, hcross⟩ := List.pairwise_append.mp hso
  refine List.pairwise_append.mpr ⟨hsL, ?_, ?_⟩
  · exact List.pairwise_cons.mpr ⟨hR, hsR⟩
  · intro a ha b hb
    rcases List.mem_cons.mp hb with rfl | hb2
    · exact hL a ha
    · exact hcross a ha b hb2

/-- Full specification of `insert_unique` on a well-formed tree: a present key
is found by the single-candidate check and returned with `false` and no
mutation; an absent key is linked, fixed up, and all invariants hold again. -/
theorem insert_unique_spec (s : rb_tree α) (val : α) (hwf : WF s) :
    ∃ s' rk b, insert_unique s val = some (s', rk, b) ∧ WF s' ∧
      (if val ∈ s.root.inorder
        then s' = s ∧ rk = val ∧ b = false
        else rk = val ∧ b = true ∧
          s'.root.inorder.Perm (val :: s.root.inorder)) := by
  obtain ⟨n₀, hbal⟩ := hwf.bal
  have hdp := descend_plug val s.root []
  have hdo := descend_ok val s.root [] (fun fr h => nomatch h)
  obtain ⟨c, m, hbnil, hcb⟩ := bal_decompose hbal hdp
  cases hbnil
  have hinv : InsInv (descend val s.root []) 0 n₀ := InsInv.of_black hcb
  have hdp' : plug Tree.nil (descend val s.root []) = s.root := hdp
  have hsplit : s.root.inorder
      = ctxLeft (descend val s.root []) ++ ctxRight (descend val s.root []) := by
    conv_lhs => rw [← hdp']
    rw [inorder_plug]; simp [Tree.inorder]
  have hzleaf : Bal (Tree.node .red .nil val .nil) .red 0 := .red .nil .nil
  rcases hde : descend val s.root [] with _ | ⟨⟨d, c2, k, sib⟩, rest⟩
  · -- y == end_: the tree is empty
    rw [hde] at hinv hsplit hdp'
    have hroot : s.root = Tree.nil := hdp'.symm
    obtain ⟨t', n', he, hb, hio⟩ := insert_fixup_spec hzleaf hinv
    have hio2 : t'.inorder = [val] := by
      rw [hio]; simp [plug, Tree.inorder]
    refine ⟨⟨t', some val, s.size_ + 1⟩, val, true, ?_, ?_, ?_⟩
    · simp [insert_unique, hde, he]
    · exact ⟨⟨n', hb⟩, by simp [hio2], by simp [hio2], by
        simp [hio2, hwf.siz, hroot, Tree.inorder]⟩
    · rw [if_neg (by simp [hroot, Tree.inorder])]
      exact ⟨rfl, rfl, by simp [hio2, hroot, Tree.inorder]⟩
  · rw [hde] at hinv hsplit hdo
    have hso := hwf.ord
    rw [hsplit] at hso
    obtain ⟨hsL, hsR, hcross⟩ := List.pairwise_append.mp hso
    have hvR := ctxRight_gt hdo hsR
    have hvL := ctxLeft_le hdo hsL
    cases d with
    | left =>
      have hkgt : val < k :=
        (hdo _ (List.mem_cons_self _ _)).1 rfl
      have hRdef : ctxRight (⟨Dir.left, c2, k, sib⟩ :: rest)
          = k :: (sib.inorder ++ ctxRight rest) := rfl
      by_cases hb0 : s.begin_ = some k
      · -- `/* begin */`: y is the cached leftmost node
        have hLnil : ctxLeft (⟨Dir.left, c2, k, sib⟩ :: rest) = [] := by
          by_contra hne
          obtain ⟨a, as, hLe⟩ := List.exists_cons_of_ne_nil hne
          have hh : s.root.inorder.head? = some a := by
            rw [hsplit, hLe]; rfl
          have hka : k = a := by
            have := (hb0.symm.trans hwf.beg).trans hh
            exact Option.some.inj this
          have hkR : k ∈ ctxRight (⟨Dir.left, c2, k, sib⟩ :: rest) := by
            rw [hRdef]; exact List.mem_cons_self _ _
          have haL : a ∈ ctxLeft (⟨Dir.left, c2, k, sib⟩ :: rest) := by
            rw [hLe]; exact List.mem_cons_self _ _
          exact absurd (hka ▸ hcross a haL k hkR) (lt_irrefl k)
        have hmem : val ∉ s.root.inorder := by
          rw [hsplit, hLnil]
          intro hv
          exact absurd (hvR val (by simpa using hv)) (lt_irrefl val)
        obtain ⟨t', n', he, hb, hio⟩ := insert_fixup_spec hzleaf hinv
        have hio2 : t'.inorder
            = val :: ctxRight (⟨Dir.left, c2, k, sib⟩ :: rest) := by
          rw [hio, inorder_plug, hLnil]; simp [Tree.inorder]
        refine ⟨⟨t', some val, s.size_ + 1⟩, val, true, ?_, ?_, ?_⟩
        · simp [insert_unique, hde, hb0, he]
        · refine ⟨⟨n', hb⟩, ?_, by simp [hio2], ?_⟩
          · rw [hio2]
            exact List.pairwise_cons.mpr ⟨hvR, hsR⟩
          · show s.size_ + 1 = t'.inorder.length
            rw [hio2, hwf.siz, hsplit, hLnil]
            simp
        · rw [if_neg hmem]
          refine ⟨rfl, rfl, ?_⟩
          rw [hio2, hsplit, hLnil]
          simp
      · -- not the cached leftmost: run the single-candidate check
        have hLdef : ctxLeft (⟨Dir.left, c2, k, sib⟩ :: rest) = ctxLeft rest := rfl
        by_cases hmem : val ∈ s.root.inorder
        · -- present: the in-order predecessor of y is exactly val
          have hvmem : val ∈ ctxLeft (⟨Dir.left, c2, k, sib⟩ :: rest) := by
            rcases List.mem_append.mp (hsplit ▸ hmem) with h | h
            · exact h
            · exact absurd (hvR val h) (lt_irrefl val)
          have hlast : walkPred rest = some val := by
            rw [walkPred_eq, ← hLdef]
            exact sorted_getLast_of_mem hsL hvmem hvL
          refine ⟨s, val, false, ?_, hwf, ?_⟩
          · simp [insert_unique, hde, hb0, hlast, lt_self_iff_false]
          · rw [if_pos hmem]; exact ⟨rfl, rfl, rfl⟩
        · -- absent: the candidate is strictly smaller, link a new leaf
          have hLn : ctxLeft (⟨Dir.left, c2, k, sib⟩ :: rest) ≠ [] := by
            intro h0
            have hh : s.root.inorder.head? = some k := by
              rw [hsplit, h0, hRdef]; rfl
            exact hb0 (hwf.beg.trans hh)
          obtain ⟨jk, hjk⟩ : ∃ jk, (ctxLeft rest).getLast? = some jk := by
            rcases h : (ctxLeft rest).getLast? with _ | jk
            · exact absurd (List.getLast?_eq_none_iff.mp h) (hLdef ▸ hLn)
            · exact ⟨jk, rfl⟩
          have hjmem : jk ∈ ctxLeft (⟨Dir.left, c2, k, sib⟩ :: rest) := by
            rw [hLdef]; exact List.mem_of_mem_getLast? hjk
          have hjin : jk ∈ s.root.inorder := by
            rw [hsplit]; exact List.mem_append_left _ hjmem
          have hjlt : jk < val :=
            lt_of_le_of_ne (hvL jk hjmem) (fun he2 => hmem (he2 ▸ hjin))
          obtain ⟨t', n', he, hb, hio⟩ := insert_fixup_spec hzleaf hinv
          have hio2 : t'.inorder
              = ctxLeft (⟨Dir.left, c2, k, sib⟩ :: rest)
                ++ val :: ctxRight (⟨Dir.left, c2, k, sib⟩ :: rest) := by
            rw [hio, inorder_plug]; simp [Tree.inorder]
          have hvLs : ∀ y ∈ ctxLeft (⟨Dir.left, c2, k, sib⟩ :: rest), y < val := by
            intro y hy
            have hyin : y ∈ s.root.inorder := by
              rw [hsplit]; exact List.mem_append_left _ hy
            exact lt_of_le_of_ne (hvL y hy) (fun hyv => hmem (hyv ▸ hyin))
          refine ⟨⟨t', s.begin_, s.size_ + 1⟩, val, true, ?_, ?_, ?_⟩
          · simp [insert_unique, hde, hb0, walkPred_eq, hjk, hjlt, he]
          · refine ⟨⟨n', hb⟩, ?_, ?_, ?_⟩
            · rw [hio2]; exact sorted_mid hso hvLs hvR
            · show s.begin_ = t'.inorder.head?
              rw [hio2, hwf.beg, hsplit]
              obtain ⟨a, as, hLe⟩ := List.exists_cons_of_ne_nil hLn
              rw [hLe]; rfl
            · show s.size_ + 1 = t'.inorder.length
              rw [hio2, hwf.siz, hsplit]
              simp only [List.length_append, List.length_cons]
              omega
          · rw [if_neg hmem]
            refine ⟨rfl, rfl, ?_⟩
            rw [hio2, hsplit]
            exact List.perm_middle
    | right =>
      have hkle : k ≤ val := (hdo _ (List.mem_cons_self _ _)).2 rfl
      have hLdef : ctxLeft (⟨Dir.right, c2, k, sib⟩ :: rest)
          = ctxLeft rest ++ sib.inorder ++ [k] := rfl
      have hlastk : (ctxLeft (⟨Dir.right, c2, k, sib⟩ :: rest)).getLast? = some k := by
        rw [hLdef, show ctxLeft rest ++ sib.inorder ++ [k]
            = (ctxLeft rest ++ sib.inorder) ++ [k] from by simp,
          List.getLast?_concat]
      have hkmem : k ∈ ctxLeft (⟨Dir.right, c2, k, sib⟩ :: rest) :=
        List.mem_of_mem_getLast? hlastk
      have hkin : k ∈ s.root.inorder := by
        rw [hsplit]; exact List.mem_append_left _ hkmem
      have hLn : ctxLeft (⟨Dir.right, c2, k, sib⟩ :: rest) ≠ [] := by
        intro h0; rw [h0] at hkmem; cases hkmem
      by_cases hmem : val ∈ s.root.inorder
      · -- present: the candidate y itself holds val
        have hvmem : val ∈ ctxLeft (⟨Dir.right, c2, k, sib⟩ :: rest) := by
          rcases List.mem_append.mp (hsplit ▸ hmem) with h | h
          · exact h
          · exact absurd (hvR val h) (lt_irrefl val)
        have hkval : k = val := by
          have h5 := sorted_getLast_of_mem hsL hvmem hvL
          exact Option.some.inj (hlastk.symm.trans h5)
        subst hkval
        refine ⟨s, k, false, ?_, hwf, ?_⟩
        · simp [insert_unique, hde, lt_self_iff_false]
        · rw [if_pos hmem]; exact ⟨rfl, rfl, rfl⟩
      · -- absent: y's key is strictly smaller, link a new right leaf
        have hklt : k < val :=
          lt_of_le_of_ne hkle (fun he2 => hmem (he2 ▸ hkin))
        obtain ⟨t', n', he, hb, hio⟩ := insert_fixup_spec hzleaf hinv
        have hio2 : t'.inorder
            = ctxLeft (⟨Dir.right, c2, k, sib⟩ :: rest)
              ++ val :: ctxRight (⟨Dir.right, c2, k, sib⟩ :: rest) := by
          rw [hio, inorder_plug]; simp [Tree.inorder]
        have hvLs : ∀ y ∈ ctxLeft (⟨Dir.right, c2, k, sib⟩ :: rest), y < val := by
          intro y hy
          have hyin : y ∈ s.root.inorder := by
            rw [hsplit]; exact List.mem_append_left _ hy
          exact lt_of_le_of_ne (hvL y hy) (fun hyv => hmem (hyv ▸ hyin))
        refine ⟨⟨t', s.begin_, s.size_ + 1⟩, val, true, ?_, ?_, ?_⟩
        · simp [insert_unique, hde, hklt, he]
        · refine ⟨⟨n', hb⟩, ?_, ?_, ?_⟩
          · rw [hio2]; exact sorted_mid hso hvLs hvR
          · show s.begin_ = t'.inorder.head?
            rw [hio2, hwf.beg, hsplit]
            obtain ⟨a, as, hLe⟩ := List.exists_cons_of_ne_nil hLn
            rw [hLe]; rfl
          · show s.size_ + 1 = t'.inorder.length
            rw [hio2, hwf.siz, hsplit]
            simp only [List.length_append, List.length_cons]
            omega
        · rw [if_neg hmem]
          refine ⟨rfl, rfl, ?_⟩
          rw [hio2, hsplit]
          exact List.perm_middle

/-- In-order sequence of the whole tree seen from an iterator's node. -/
theorem plugZ_inorder (z : Zip α) :
    (plugZ z).inorder
      = (ctxLeft z.ctx ++ z.l.inorder) ++ z.key :: (z.r.inorder ++ ctxRight z.ctx) := by
  rw [plugZ, inorder_plug]
  simp [Zip.tree, Tree.inorder, List.append_assoc]

/-- `min_node` finds the node holding the head of the subtree's in-order
sequence; its descent pushes only left frames. -/
theorem min_node_spec (c : Color) (l : Tree α) (k : α) (r : Tree α) :
    ∀ ctx : Ctx α, ∃ zm, min_node (.node c l k r) ctx = some zm ∧
      zm.l = .nil ∧ plug zm.tree zm.ctx = plug (.node c l k r) ctx ∧
      ctxLeft zm.ctx = ctxLeft ctx ∧
      (Tree.node c l k r).inorder ++ ctxRight ctx
        = zm.key :: (zm.r.inorder ++ ctxRight zm.ctx) := by
  induction l generalizing c k r with
  | nil =>
    intro ctx
    exact ⟨⟨c, .nil, k, r, ctx⟩, rfl, rfl, rfl, rfl, by simp [Tree.inorder]⟩
  | node cl a lk b iha ihb =>
    intro ctx
    obtain ⟨zm, he, hnil, hplug, hctxL, hin⟩ := iha cl lk b (⟨.left, c, k, r⟩ :: ctx)
    refine ⟨zm, he, hnil, ?_, ?_, ?_⟩
    · rw [hplug]; rfl
    · rw [hctxL]; rfl
    · rw [show (Tree.node c (Tree.node cl a lk b) k r).inorder ++ ctxRight ctx
          = (Tree.node cl a lk b).inorder ++ ctxRight (⟨Dir.left, c, k, r⟩ :: ctx)
          from by
            show ((Tree.node cl a lk b).inorder ++ k :: r.inorder) ++ ctxRight ctx
              = (Tree.node cl a lk b).inorder ++ (k :: (r.inorder ++ ctxRight ctx))
            simp [List.append_assoc], hin]

/-- `max_node` finds the node holding the last key of the subtree's in-order
sequence; its descent pushes only right frames. -/
theorem max_node_spec (c : Color) (l : Tree α) (k : α) (r : Tree α) :
    ∀ ctx : Ctx α, ∃ zm, max_node (.node c l k r) ctx = some zm ∧
      zm.r = .nil ∧ plug zm.tree zm.ctx = plug (.node c l k r) ctx ∧
      ctxRight zm.ctx = ctxRight ctx ∧
      ctxLeft ctx ++ (Tree.node c l k r).inorder
        = (ctxLeft zm.ctx ++ zm.l.inorder) ++ [zm.key] := by
  induction r generalizing c k l with
  | nil =>
    intro ctx
    refine ⟨⟨c, l, k, .nil, ctx⟩, rfl, rfl, rfl, rfl, ?_⟩
    show ctxLeft ctx ++ (l.inorder ++ k :: Tree.inorder .nil) = _
    simp [Tree.inorder, List.append_assoc]
  | node cr a rk b iha ihb =>
    intro ctx
    obtain ⟨zm, he, hnil, hplug, hctxR, hin⟩ := ihb cr a rk (⟨.right, c, k, l⟩ :: ctx)
    refine ⟨zm, he, hnil, ?_, ?_, ?_⟩
    · rw [hplug]; rfl
    · rw [hctxR]; rfl
    · rw [show ctxLeft ctx ++ (Tree.node c l k (Tree.node cr a rk b)).inorder
          = ctxLeft (⟨Dir.right, c, k, l⟩ :: ctx) ++ (Tree.node cr a rk b).inorder
          from by
            show ctxLeft ctx ++ (l.inorder ++ k :: (Tree.node cr a rk b).inorder)
              = (ctxLeft ctx ++ l.inorder ++ [k]) ++ (Tree.node cr a rk b).inorder
            simp [List.append_assoc], hin]

/-- The ascending branch of `next_node` reaches the node holding the first key
to the right of the hole, or `end_` when there is none. -/
theorem ascendNext_spec : ∀ (ctx : Ctx α) (t : Tree α),
    (ascendNext t ctx = none ∧ ctxRight ctx = []) ∨
    (∃ z', ascendNext t ctx = some z' ∧ plug z'.tree z'.ctx = plug t ctx ∧
      ctxRight ctx = z'.key :: (z'.r.inorder ++ ctxRight z'.ctx)) := by
  intro ctx
  induction ctx with
  | nil => exact fun t => .inl ⟨rfl, rfl⟩
  | cons fr rest ih =>
    intro t
    rcases fr with ⟨d, c, k, s⟩
    cases d with
    | right =>
      rcases ih (fill ⟨.right, c, k, s⟩ t) with ⟨h1, h2⟩ | ⟨z', h1, h2, h3⟩
      · exact .inl ⟨h1, h2⟩
      · exact .inr ⟨z', h1, h2, h3⟩
    | left =>
      exact .inr ⟨⟨c, t, k, s, rest⟩, rfl, rfl, rfl⟩

/-- The ascending branch of `prev_node`, mirrored. -/
theorem ascendPrev_spec : ∀ (ctx : Ctx α) (t : Tree α),
    (ascendPrev t ctx = none ∧ ctxLeft ctx = []) ∨
    (∃ z', ascendPrev t ctx = some z' ∧ plug z'.tree z'.ctx = plug t ctx ∧
      ctxLeft ctx = (ctxLeft z'.ctx ++ z'.l.inorder) ++ [z'.key]) := by
  intro ctx
  induction ctx with
  | nil => exact fun t => .inl ⟨rfl, rfl⟩
  | cons fr rest ih =>
    intro t
    rcases fr with ⟨d, c, k, s⟩
    cases d with
    | left =>
      rcases ih (fill ⟨.left, c, k, s⟩ t) with ⟨h1, h2⟩ | ⟨z', h1, h2, h3⟩
      · exact .inl ⟨h1, h2⟩
      · exact .inr ⟨z', h1, h2, h3⟩
    | right =>
      refine .inr ⟨⟨c, s, k, t, rest⟩, rfl, rfl, ?_⟩
      show ctxLeft rest ++ s.inorder ++ [k] = (ctxLeft rest ++ s.inorder) ++ [k]
      simp [List.append_assoc]

/-- `next_node` moves the iterator to the in-order successor: its suffix of
keys still to visit loses exactly the focused key. -/
theorem next_node_spec (z : Zip α) :
    (next_node z = none ∧ z.r.inorder ++ ctxRight z.ctx = []) ∨
    (∃ z', next_node z = some z' ∧ plugZ z' = plugZ z ∧
      z.r.inorder ++ ctxRight z.ctx
        = z'.key :: (z'.r.inorder ++ ctxRight z'.ctx)) := by
  rcases hr : z.r with _ | ⟨cr, a, kr, b⟩
  · rcases ascendNext_spec z.ctx z.tree with ⟨h1, h2⟩ | ⟨z', h1, h2, h3⟩
    · refine .inl ⟨?_, by simp [hr, Tree.inorder, h2]⟩
      show next_node z = none
      rw [next_node, hr]
      exact h1
    · refine .inr ⟨z', ?_, h2, ?_⟩
      · show next_node z = some z'
        rw [next_node, hr]
        exact h1
      · simp [hr, Tree.inorder]
        simpa [List.append_assoc] using h3
  · obtain ⟨zm, he, hnil, hplug, hctxL, hin⟩ :=
      min_node_spec cr a kr b (⟨.right, z.color, z.key, z.l⟩ :: z.ctx)
    refine .inr ⟨zm, ?_, ?_, ?_⟩
    · show next_node z = some zm
      rw [next_node, hr]
      exact he
    · show plug zm.tree zm.ctx = plug z.tree z.ctx
      rw [hplug, ← hr]
      rfl
    · have hin' : (Tree.node cr a kr b).inorder ++ ctxRight z.ctx
          = zm.key :: (zm.r.inorder ++ ctxRight zm.ctx) := hin
      exact hin'

/-- `prev_node` moves the iterator to the in-order predecessor, mirrored. -/
theorem prev_node_spec (z : Zip α) :
    (prev_node z = none ∧ ctxLeft z.ctx ++ z.l.inorder = []) ∨
    (∃ z', prev_node z = some z' ∧ plugZ z' = plugZ z ∧
      ctxLeft z.ctx ++ z.l.inorder
        = (ctxLeft z'.ctx ++ z'.l.inorder) ++ [z'.key]) := by
  rcases hl : z.l with _ | ⟨cl, a, kl, b⟩
  · rcases ascendPrev_spec z.ctx z.tree with ⟨h1, h2⟩ | ⟨z', h1, h2, h3⟩
    · refine .inl ⟨?_, by simp [hl, Tree.inorder, h2]⟩
      show prev_node z = none
      rw [prev_node, hl]
      exact h1
    · refine .inr ⟨z', ?_, h2, ?_⟩
      · show prev_node z = some z'
        rw [prev_node, hl]
        exact h1
      · simp [hl, Tree.inorder]
        simpa [List.append_assoc] using h3
  · obtain ⟨zm, he, hnil, hplug, hctxR, hin⟩ :=
      max_node_spec cl a kl b (⟨.left, z.color, z.key, z.r⟩ :: z.ctx)
    refine .inr ⟨zm, ?_, ?_, ?_⟩
    · show prev_node z = some zm
      rw [prev_node, hl]
      exact he
    · show plug zm.tree zm.ctx = plug z.tree z.ctx
      rw [hplug, ← hl]
      rfl
    · have hin' : ctxLeft z.ctx ++ (Tree.node cl a kl b).inorder
          = (ctxLeft zm.ctx ++ zm.l.inorder) ++ [zm.key] := hin
      exact hin'

theorem ctxLeft_append (a b : Ctx α) :
    ctxLeft (a ++ b) = ctxLeft b ++ ctxLeft a := by
  induction a with
  | nil => simp [ctxLeft]
  | cons fr rest ih =>
    rcases fr with ⟨d, c, k, s⟩
    cases d with
    | left =>
      show ctxLeft (rest ++ b) = ctxLeft b ++ ctxLeft rest
      exact ih
    | right =>
      show ctxLeft (rest ++ b) ++ s.inorder ++ [k]
        = ctxLeft b ++ (ctxLeft rest ++ s.inorder ++ [k])
      rw [ih]
      simp [List.append_assoc]

theorem ctxRight_append (a b : Ctx α) :
    ctxRight (a ++ b) = ctxRight a ++ ctxRight b := by
  induction a with
  | nil => simp [ctxRight]
  | cons fr rest ih =>
    rcases fr with ⟨d, c, k, s⟩
    cases d with
    | left =>
      show k :: s.inorder ++ ctxRight (rest ++ b)
        = (k :: s.inorder ++ ctxRight rest) ++ ctxRight b
      rw [ih]
      simp [List.append_assoc]
    | right =>
      show ctxRight (rest ++ b) = ctxRight rest ++ ctxRight b
      exact ih

theorem head_erase_unchanged {A B : List α} {x : α} (hA : A ≠ []) :
    (A ++ x :: B).head? = (A ++ B).head? := by
  cases A with
  | nil => exact absurd rfl hA
  | cons a as => rfl

theorem inorder_node_ne_nil (c : Color) (l : Tree α) (k : α) (r : Tree α) :
    (Tree.node c l k r).inorder ≠ [] := by
  simp [Tree.inorder]

/-- If the begin cache points at the key being erased, everything left of that
key is empty. -/
theorem erase_left_nil {s : rb_tree α} (hwf : WF s) {A B : List α} {x : α}
    (hio : s.root.inorder = A ++ x :: B) (hb : s.begin_ = some x) : A = [] := by
  by_contra hne
  obtain ⟨a, as, hAe⟩ := List.exists_cons_of_ne_nil hne
  have hh : s.root.inorder.head? = some a := by rw [hio, hAe]; rfl
  have hxa : x = a := Option.some.inj ((hb.symm.trans hwf.beg).trans hh)
  have hso := hwf.ord
  rw [hio, hAe] at hso
  have hlt := List.rel_of_sorted_cons hso x
    (by simp)
  exact absurd (hxa ▸ hlt) (by simp)

theorem Bal.black_zero_nil {t : Tree α} (h : Bal t .black 0) : t = Tree.nil := by
  cases t with
  | nil => rfl
  | node c l k r => cases h

/-- Rebuild the well-formedness record after an erase, given the new root and
cache value. -/
theorem wf_after_erase {s : rb_tree α} (hwf : WF s) {A B : List α} {zkey : α}
    (hio : s.root.inorder = A ++ zkey :: B)
    {root' : Tree α} {n' : Nat} (hb : Bal root' .black n')
    (hio' : root'.inorder = A ++ B) {begin' : Option α}
    (hbeg : begin' = (A ++ B).head?) :
    WF (⟨root', begin', s.size_ - 1⟩ : rb_tree α) := by
  refine ⟨⟨n', hb⟩, ?_, ?_, ?_⟩
  · show root'.inorder.Sorted (· < ·)
    rw [hio']
    have hso := hwf.ord
    rw [hio] at hso
    exact hso.sublist ((List.sublist_cons_self zkey B).append_left A)
  · show begin' = root'.inorder.head?
    rw [hio', hbeg]
  · show s.size_ - 1 = root'.inorder.length
    have := hwf.siz
    rw [hio] at this
    rw [hio']
    simp only [List.length_append, List.length_cons] at this ⊢
    omega

/-- Full specification of `erase_node` on a well-formed tree: the focused
node's key is removed from the in-order sequence and all invariants are
restored. -/
theorem erase_node_spec (s : rb_tree α) (z : Zip α) (hwf : WF s)
    (hz : plugZ z = s.root) :
    ∃ s', erase_node s z = some s' ∧ WF s' ∧
      s'.root.inorder
        = (ctxLeft z.ctx ++ z.l.inorder) ++ (z.r.inorder ++ ctxRight z.ctx) := by
  obtain ⟨n₀, hbal⟩ := hwf.bal
  obtain ⟨cz, m, hbz, hcbz⟩ := bal_decompose hbal hz
  have hio : s.root.inorder = (ctxLeft z.ctx ++ z.l.inorder)
      ++ z.key :: (z.r.inorder ++ ctxRight z.ctx) := by
    rw [← hz]; exact plugZ_inorder z
  obtain ⟨zc, zl, zk, zr, zctx⟩ := z
  simp only at hio hbz hcbz ⊢
  rcases zl with _ | ⟨cl2, la, lk, lb⟩
  · -- z->left == nil_: x = z->right fills the slot
    simp only [Tree.inorder, List.nil_append, List.append_nil] at hio ⊢
    have hroot : ∃ root' n', (if zc = .black then erase_fixup zr zctx
          else some (plug zr zctx)) = some root' ∧ Bal root' .black n' ∧
        root'.inorder = ctxLeft zctx ++ (zr.inorder ++ ctxRight zctx) := by
      cases hbz with
      | red hbl hbr =>
        cases hbl
        -- a red node with a null left child has two null children
        have hzr : zr = Tree.nil := hbr.black_zero_nil
        refine ⟨plug zr zctx, n₀, by simp, ?_, ?_⟩
        · rw [hzr]
          exact (hcbz.recolor_of_black .black).fill_bal .nil
        · rw [inorder_plug]; simp [List.append_assoc]
      | black hbl hbr =>
        cases hbl
        obtain ⟨t', n', he, hbt, hiot⟩ := erase_fixup_spec hbr hcbz
        refine ⟨t', n', by simp [he], hbt, ?_⟩
        rw [hiot, inorder_plug]
        simp [List.append_assoc]
    obtain ⟨root', n', he, hbt, hiot⟩ := hroot
    by_cases hbq : s.begin_ = some zk
    · -- z is the cached leftmost node: advance the cache before splicing
      have hA : ctxLeft zctx = [] := erase_left_nil hwf hio hbq
      have hbeg : ((next_node ⟨zc, .nil, zk, zr, zctx⟩).map (·.key))
          = (zr.inorder ++ ctxRight zctx).head? := by
        rcases next_node_spec ⟨zc, .nil, zk, zr, zctx⟩ with ⟨h1, h2⟩ | ⟨z', h1, h2, h3⟩
        · rw [h1]
          simp only at h2
          rw [h2]
          rfl
        · rw [h1]
          simp only at h3
          rw [h3]
          rfl
      refine ⟨⟨root', (next_node ⟨zc, .nil, zk, zr, zctx⟩).map (·.key),
        s.size_ - 1⟩, ?_, ?_, ?_⟩
      · simp only [erase_node, he, hbq]
        simp
      · refine wf_after_erase hwf (A := ctxLeft zctx) hio hbt ?_ ?_
        · rw [hiot]
        · rw [hbeg, hA]; rfl
      · rw [hiot]
    · -- some other node: the cache and the head of the sequence are unchanged
      have hA : ctxLeft zctx ≠ [] := by
        intro h0
        apply hbq
        rw [hwf.beg, hio, h0]
        rfl
      refine ⟨⟨root', s.begin_, s.size_ - 1⟩, ?_, ?_, ?_⟩
      · simp only [erase_node, he]
        simp [hbq]
      · refine wf_after_erase hwf (A := ctxLeft zctx) hio hbt ?_ ?_
        · rw [hiot]
        · rw [hwf.beg, hio, head_erase_unchanged hA]
      · rw [hiot]
  · rcases zr with _ | ⟨cr2, ra, rk, rb⟩
    · -- z->right == nil_: x = z->left fills the slot
      simp only [Tree.inorder, List.append_nil] at hio ⊢
      have hroot : ∃ root' n',
          (if zc = .black then erase_fixup (Tree.node cl2 la lk lb) zctx
            else some (plug (Tree.node cl2 la lk lb) zctx)) = some root' ∧
          Bal root' .black n' ∧
          root'.inorder = ctxLeft zctx ++ ((Tree.node cl2 la lk lb).inorder
            ++ ctxRight zctx) := by
        cases hbz with
        | red hbl hbr =>
          -- the left child would be a real black node of height zero: impossible
          cases hbr
          cases hbl
        | black hbl hbr =>
          cases hbr
          obtain ⟨t', n', he, hbt, hiot⟩ := erase_fixup_spec hbl hcbz
          refine ⟨t', n', by simp [he], hbt, ?_⟩
          rw [hiot, inorder_plug]
          simp [List.append_assoc]
      obtain ⟨root', n', he, hbt, hiot⟩ := hroot
      refine ⟨⟨root', s.begin_, s.size_ - 1⟩, ?_, ?_, ?_⟩
      · simp only [erase_node, he]
        simp
      · have hioB : s.root.inorder
            = (ctxLeft zctx ++ (Tree.node cl2 la lk lb).inorder)
              ++ zk :: ctxRight zctx := by
          rw [hio]; simp [Tree.inorder, List.append_assoc]
        refine wf_after_erase hwf hioB hbt ?_ ?_
        · rw [hiot]; simp [Tree.inorder, List.append_assoc]
        · rw [hwf.beg, hio]
          rw [head_erase_unchanged (by simp [inorder_node_ne_nil])]
          simp [Tree.inorder, List.head?_append, List.append_assoc, Option.or_assoc]
      · rw [hiot]
        simp [Tree.inorder, List.append_assoc]
    · -- two children: splice out the in-order successor
      obtain ⟨zm, hme, hmnil, hmplug, hmctxL, hmin⟩ := min_node_spec cr2 ra rk rb []
      have hmin' : (Tree.node cr2 ra rk rb).inorder
          = zm.key :: (zm.r.inorder ++ ctxRight zm.ctx) := by
        have h9 := hmin
        simp only [ctxRight, List.append_nil] at h9
        exact h9
      -- sibling-and-chain balance seen from y's slot
      have hsplitb : ∃ cb m₂, Bal (Tree.node cr2 ra rk rb) cb m₂ ∧
          CtxBal (⟨.right, zc, zm.key, Tree.node cl2 la lk lb⟩ :: zctx)
            cb m₂ .black n₀ := by
        cases hbz with
        | red hbl hbr => exact ⟨.black, _, hbr, .redR hbl hcbz⟩
        | black hbl hbr => exact ⟨_, _, hbr, .blackR hbl hcbz⟩
      obtain ⟨cb, m₂, hrb, houter⟩ := hsplitb
      obtain ⟨cy, ny, hby, hcy⟩ := bal_decompose hrb hmplug
      have hctxFix := hcy.append houter
      obtain ⟨ymc, yml, ymk, ymr, ymctx⟩ := zm
      simp only at hmnil
      subst hmnil
      simp only at hmin' hmctxL hctxFix hby ⊢
      have hroot : ∃ root' n',
          (if ymc = .black
            then erase_fixup ymr (ymctx ++ ⟨.right, zc, ymk,
              Tree.node cl2 la lk lb⟩ :: zctx)
            else some (plug ymr (ymctx ++ ⟨.right, zc, ymk,
              Tree.node cl2 la lk lb⟩ :: zctx))) = some root' ∧
          Bal root' .black n' ∧
          root'.inorder = (ctxLeft (ymctx ++ ⟨.right, zc, ymk,
              Tree.node cl2 la lk lb⟩ :: zctx))
            ++ (ymr.inorder ++ ctxRight (ymctx ++ ⟨.right, zc, ymk,
              Tree.node cl2 la lk lb⟩ :: zctx)) := by
        cases hby with
        | red hbl hbr =>
          cases hbl
          have hzr : ymr = Tree.nil := hbr.black_zero_nil
          refine ⟨plug ymr (ymctx ++ ⟨.right, zc, ymk,
            Tree.node cl2 la lk lb⟩ :: zctx), n₀, by simp, ?_, ?_⟩
          · rw [hzr]
            exact (hctxFix.recolor .black (by simp)).fill_bal .nil
          · rw [inorder_plug]; simp [List.append_assoc]
        | black hbl hbr =>
          cases hbl
          obtain ⟨t', n', he, hbt, hiot⟩ := erase_fixup_spec hbr hctxFix
          refine ⟨t', n', by simp [he], hbt, ?_⟩
          rw [hiot, inorder_plug]
          simp [List.append_assoc]
      obtain ⟨root', n', he, hbt, hiot⟩ := hroot
      have hAnn : ctxLeft zctx ++ (Tree.node cl2 la lk lb).inorder ≠ [] := by
        simp [inorder_node_ne_nil]
      have hio2 : root'.inorder = (ctxLeft zctx ++ (Tree.node cl2 la lk lb).inorder)
          ++ ((Tree.node cr2 ra rk rb).inorder ++ ctxRight zctx) := by
        rw [hiot, ctxLeft_append, ctxRight_append, hmctxL, hmin']
        show ((ctxLeft zctx ++ (Tree.node cl2 la lk lb).inorder ++ [ymk])
            ++ ctxLeft []) ++ (ymr.inorder ++ (ctxRight ymctx ++ ctxRight zctx)) = _
        simp [ctxLeft, List.append_assoc]
      refine ⟨⟨root', s.begin_, s.size_ - 1⟩, ?_, ?_, ?_⟩
      · simp only [erase_node, hme, he]
        simp
      · have hioB : s.root.inorder
            = (ctxLeft zctx ++ (Tree.node cl2 la lk lb).inorder)
              ++ zk :: ((Tree.node cr2 ra rk rb).inorder ++ ctxRight zctx) := by
          rw [hio]
        refine wf_after_erase hwf hioB hbt ?_ ?_
        · rw [hio2]
        · rw [hwf.beg, hio]
          rw [head_erase_unchanged hAnn]
      · rw [hio2]

theorem balCheck_sound : ∀ {t : Tree α} {c : Color} {n : Nat},
    balCheck t = some (c, n) → Bal t c n := by
  intro t
  induction t with
  | nil => intro c n h; cases h; exact .nil
  | node tc l k r ihl ihr =>
    intro c n h
    simp only [balCheck] at h
    rcases hbl : balCheck l with _ | ⟨cl, nl⟩ <;> rw [hbl] at h
    · cases h
    rcases hbr : balCheck r with _ | ⟨cr, nr⟩ <;> rw [hbr] at h
    · cases h
    dsimp only at h
    by_cases hn : nl = nr
    · rw [if_pos hn] at h
      subst hn
      cases tc with
      | red =>
        by_cases hc : cl = .black ∧ cr = .black
        · rw [if_pos hc] at h
          cases h
          exact .red (ihl (hc.1 ▸ hbl)) (ihr (hc.2 ▸ hbr))
        · rw [if_neg hc] at h; cases h
      | black =>
        cases h
        exact .black (ihl hbl) (ihr hbr)
    · rw [if_neg hn] at h; cases h

theorem inorder_eq_nil_iff (t : Tree α) : t.inorder = [] ↔ t = .nil := by
  cases t with
  | nil => simp [Tree.inorder]
  | node c l k r => simp [Tree.inorder]

theorem wf_of_balCheck {s : rb_tree α} {n : Nat}
    (hb : balCheck s.root = some (.black, n))
    (hs : s.root.inorder.Sorted (· < ·))
    (hbeg : s.begin_ = s.root.inorder.head?)
    (hsiz : s.size_ = s.root.inorder.length) : WF s :=
  ⟨⟨n, balCheck_sound hb⟩, hs, hbeg, hsiz⟩

theorem wf_mkEmpty : WF (rb_tree.mkEmpty : rb_tree α) :=
  ⟨⟨0, .nil⟩, List.sorted_nil, rfl, rfl⟩

theorem sorted_around {L A B R : List α} {k : α}
    (hs : (L ++ ((A ++ k :: B) ++ R)).Sorted (· < ·)) :
    (∀ e ∈ A, e < k) ∧ (∀ e ∈ B, k < e) := by
  have h1 : (A ++ k :: B).Sorted (· < ·) :=
    hs.sublist ((List.sublist_append_left (A ++ k :: B) R).trans
      (List.sublist_append_right L _))
  obtain ⟨hA, hkB, hcross⟩ := List.pairwise_append.mp h1
  exact ⟨fun e he => hcross e he k (List.mem_cons_self k B),
    fun e he => List.rel_of_sorted_cons hkB e he⟩

/-- Loop invariant and postcondition of the `lower_bound` descent: the final
candidate designates the head of the suffix of elements not less than `val`. -/
theorem lbLoop_spec (val : α) (root : Tree α) (hs : root.inorder.Sorted (· < ·)) :
    ∀ (t : Tree α) (ctx : Ctx α) (y : Option (Zip α)),
      ctxLeft ctx ++ (t.inorder ++ ctxRight ctx) = root.inorder →
      plug t ctx = root →
      (∀ e ∈ ctxLeft ctx, e < val) →
      (∀ e ∈ ctxRight ctx, val ≤ e) →
      ((y = none ∧ ctxRight ctx = []) ∨
        (∃ zy, y = some zy ∧ plugZ zy = root ∧
          zy.key :: (zy.r.inorder ++ ctxRight zy.ctx) = ctxRight ctx)) →
      ∃ L R, root.inorder = L ++ R ∧ (∀ e ∈ L, e < val) ∧ (∀ e ∈ R, val ≤ e) ∧
        ((lbLoop val t ctx y = none ∧ R = []) ∨
          (∃ z', lbLoop val t ctx y = some z' ∧ plugZ z' = root ∧
            z'.key :: (z'.r.inorder ++ ctxRight z'.ctx) = R)) := by
  intro t
  induction t with
  | nil =>
    intro ctx y hdec hplug hL hR hy
    refine ⟨ctxLeft ctx, ctxRight ctx, ?_, hL, hR, ?_⟩
    · rw [← hdec]; rfl
    · simpa [lbLoop] using hy
  | node c l k r ihl ihr =>
    intro ctx y hdec hplug hL hR hy
    have hdec0 : ctxLeft ctx ++ ((l.inorder ++ k :: r.inorder) ++ ctxRight ctx)
        = root.inorder := hdec
    have haround := sorted_around (L := ctxLeft ctx) (R := ctxRight ctx)
      (by rw [hdec0]; exact hs)
    by_cases hk : k < val
    · have hdec' : ctxLeft (⟨.right, c, k, l⟩ :: ctx)
          ++ (r.inorder ++ ctxRight (⟨.right, c, k, l⟩ :: ctx)) = root.inorder := by
        rw [← hdec0]
        show (ctxLeft ctx ++ l.inorder ++ [k]) ++ (r.inorder ++ ctxRight ctx) = _
        simp [List.append_assoc]
      have hplug' : plug r (⟨.right, c, k, l⟩ :: ctx) = root := hplug
      have hL' : ∀ e ∈ ctxLeft (⟨.right, c, k, l⟩ :: ctx), e < val := by
        intro e he
        have he' : e ∈ ctxLeft ctx ++ l.inorder ++ [k] := he
        rcases List.mem_append.mp he' with h1 | h2
        · rcases List.mem_append.mp h1 with h3 | h4
          · exact hL e h3
          · exact lt_trans (haround.1 e h4) hk
        · rw [List.mem_singleton.mp h2]; exact hk
      have hres := ihr (⟨.right, c, k, l⟩ :: ctx) y hdec' hplug' hL' hR hy
      rw [show lbLoop val (.node c l k r) ctx y
          = lbLoop val r (⟨.right, c, k, l⟩ :: ctx) y from by simp [lbLoop, hk]]
      exact hres
    · have hvk : val ≤ k := not_lt.mp hk
      have hdec' : ctxLeft (⟨.left, c, k, r⟩ :: ctx)
          ++ (l.inorder ++ ctxRight (⟨.left, c, k, r⟩ :: ctx)) = root.inorder := by
        rw [← hdec0]
        show ctxLeft ctx ++ (l.inorder ++ (k :: (r.inorder ++ ctxRight ctx))) = _
        simp [List.append_assoc]
      have hplug' : plug l (⟨.left, c, k, r⟩ :: ctx) = root := hplug
      have hR' : ∀ e ∈ ctxRight (⟨.left, c, k, r⟩ :: ctx), val ≤ e := by
        intro e he
        have he' : e ∈ k :: (r.inorder ++ ctxRight ctx) := he
        rcases List.mem_cons.mp he' with rfl | h2
        · exact hvk
        · rcases List.mem_append.mp h2 with h3 | h4
          · exact le_of_lt (lt_of_le_of_lt hvk (haround.2 e h3))
          · exact hR e h4
      have hres := ihl (⟨.left, c, k, r⟩ :: ctx) (some ⟨c, l, k, r, ctx⟩) hdec'
        hplug' hL hR' (Or.inr ⟨⟨c, l, k, r, ctx⟩, rfl, hplug, rfl⟩)
      rw [show lbLoop val (.node c l k r) ctx y
          = lbLoop val l (⟨.left, c, k, r⟩ :: ctx) (some ⟨c, l, k, r, ctx⟩) from by
            simp [lbLoop, hk]]
      exact hres

/-- `lower_bound` splits the key sequence at `val` and returns an iterator to
the head of the not-less suffix, or `end()` when the suffix is empty. -/
theorem lower_bound_spec (s : rb_tree α) (val : α) (hwf : WF s) :
    ∃ L R, s.root.inorder = L ++ R ∧ (∀ e ∈ L, e < val) ∧ (∀ e ∈ R, val ≤ e) ∧
      ((lower_bound_unique s val = none ∧ R = []) ∨
        (∃ z, lower_bound_unique s val = some z ∧ plugZ z = s.root ∧
          z.key :: (z.r.inorder ++ ctxRight z.ctx) = R)) := by
  have h := lbLoop_spec val s.root hwf.ord s.root [] none
    (by simp [ctxLeft, ctxRight]) rfl (by simp [ctxLeft]) (by simp [ctxRight])
    (Or.inl ⟨rfl, rfl⟩)
  simpa [lower_bound_unique] using h

/-- Loop invariant and postcondition of the `upper_bound` descent, the mirror
of `lbLoop_spec` with a strict split. -/
theorem ubLoop_spec (val : α) (root : Tree α) (hs : root.inorder.Sorted (· < ·)) :
    ∀ (t : Tree α) (ctx : Ctx α) (y : Option (Zip α)),
      ctxLeft ctx ++ (t.inorder ++ ctxRight ctx) = root.inorder →
      plug t ctx = root →
      (∀ e ∈ ctxLeft ctx, e ≤ val) →
      (∀ e ∈ ctxRight ctx, val < e) →
      ((y = none ∧ ctxRight ctx = []) ∨
        (∃ zy, y = some zy ∧ plugZ zy = root ∧
          zy.key :: (zy.r.inorder ++ ctxRight zy.ctx) = ctxRight ctx)) →
      ∃ L R, root.inorder = L ++ R ∧ (∀ e ∈ L, e ≤ val) ∧ (∀ e ∈ R, val < e) ∧
        ((ubLoop val t ctx y = none ∧ R = []) ∨
          (∃ z', ubLoop val t ctx y = some z' ∧ plugZ z' = root ∧
            z'.key :: (z'.r.inorder ++ ctxRight z'.ctx) = R)) := by
  intro t
  induction t with
  | nil =>
    intro ctx y hdec hplug hL hR hy
    refine ⟨ctxLeft ctx, ctxRight ctx, ?_, hL, hR, ?_⟩
    · rw [← hdec]; rfl
    · simpa [ubLoop] using hy
  | node c l k r ihl ihr =>
    intro ctx y hdec hplug hL hR hy
    have hdec0 : ctxLeft ctx ++ ((l.inorder ++ k :: r.inorder) ++ ctxRight ctx)
        = root.inorder := hdec
    have haround := sorted_around (L := ctxLeft ctx) (R := ctxRight ctx)
      (by rw [hdec0]; exact hs)
    by_cases hk : val < k
    · have hdec' : ctxLeft (⟨.left, c, k, r⟩ :: ctx)
          ++ (l.inorder ++ ctxRight (⟨.left, c, k, r⟩ :: ctx)) = root.inorder := by
        rw [← hdec0]
        show ctxLeft ctx ++ (l.inorder ++ (k :: (r.inorder ++ ctxRight ctx))) = _
        simp [List.append_assoc]
      have hplug' : plug l (⟨.left, c, k, r⟩ :: ctx) = root := hplug
      have hR' : ∀ e ∈ ctxRight (⟨.left, c, k, r⟩ :: ctx), val < e := by
        intro e he
        have he' : e ∈ k :: (r.inorder ++ ctxRight ctx) := he
        rcases List.mem_cons.mp he' with rfl | h2
        · exact hk
        · rcases List.mem_append.mp h2 with h3 | h4
          · exact lt_trans hk (haround.2 e h3)
          · exact hR e h4
      have hres := ihl (⟨.left, c, k, r⟩ :: ctx) (some ⟨c, l, k, r, ctx⟩) hdec'
        hplug' hL hR' (Or.inr ⟨⟨c, l, k, r, ctx⟩, rfl, hplug, rfl⟩)
      rw [show ubLoop val (.node c l k r) ctx y
          = ubLoop val l (⟨.left, c, k, r⟩ :: ctx) (some ⟨c, l, k, r, ctx⟩) from by
            simp [ubLoop, hk]]
      exact hres
    · have hkv : k ≤ val := not_lt.mp hk
      have hdec' : ctxLeft (⟨.right, c, k, l⟩ :: ctx)
          ++ (r.inorder ++ ctxRight (⟨.right, c, k, l⟩ :: ctx)) = root.inorder := by
        rw [← hdec0]
        show (ctxLeft ctx ++ l.inorder ++ [k]) ++ (r.inorder ++ ctxRight ctx) = _
        simp [List.append_assoc]
      have hplug' : plug r (⟨.right, c, k, l⟩ :: ctx) = root := hplug
      have hL' : ∀ e ∈ ctxLeft (⟨.right, c, k, l⟩ :: ctx), e ≤ val := by
        intro e he
        have he' : e ∈ ctxLeft ctx ++ l.inorder ++ [k] := he
        rcases List.mem_append.mp he' with h1 | h2
        · rcases List.mem_append.mp h1 with h3 | h4
          · exact hL e h3
          · exact le_of_lt (lt_of_lt_of_le (haround.1 e h4) hkv)
        · rw [List.mem_singleton.mp h2]; exact hkv
      have hres := ihr (⟨.right, c, k, l⟩ :: ctx) y hdec' hplug' hL' hR hy
      rw [show ubLoop val (.node c l k r) ctx y
          = ubLoop val r (⟨.right, c, k, l⟩ :: ctx) y from by simp [ubLoop, hk]]
      exact hres

/-- `upper_bound` splits the key sequence strictly at `val`. -/
theorem upper_bound_spec (s : rb_tree α) (val : α) (hwf : WF s) :
    ∃ L R, s.root.inorder = L ++ R ∧ (∀ e ∈ L, e ≤ val) ∧ (∀ e ∈ R, val < e) ∧
      ((upper_bound_unique s val = none ∧ R = []) ∨
        (∃ z, upper_bound_unique s val = some z ∧ plugZ z = s.root ∧
          z.key :: (z.r.inorder ++ ctxRight z.ctx) = R)) := by
  have h := ubLoop_spec val s.root hwf.ord s.root [] none
    (by simp [ctxLeft, ctxRight]) rfl (by simp [ctxLeft]) (by simp [ctxRight])
    (Or.inl ⟨rfl, rfl⟩)
  simpa [upper_bound_unique] using h

/-- The two outcomes of `lower_bound(val)` that the key-level operations
dispatch on: `val` present and designated by the result, or `val` absent and
the result `end()` or a strictly greater element. -/
theorem lower_bound_cases (s : rb_tree α) (val : α) (hwf : WF s) :
    (val ∈ s.root.inorder ∧
      ∃ z, lower_bound_unique s val = some z ∧ plugZ z = s.root ∧
        z.key = val) ∨
    (val ∉ s.root.inorder ∧
      (lower_bound_unique s val = none ∨
        ∃ z, lower_bound_unique s val = some z ∧ val < z.key)) := by
  obtain ⟨L, R, hio, hL, hR, hres⟩ := lower_bound_spec s val hwf
  rcases hres with ⟨h1, h2⟩ | ⟨z, h1, h2, h3⟩
  · refine .inr ⟨?_, .inl h1⟩
    intro hmem
    rw [hio, h2, List.append_nil] at hmem
    exact lt_irrefl val (hL val hmem)
  · have hkR : z.key ∈ R := by rw [← h3]; exact List.mem_cons_self _ _
    have hRsorted : R.Sorted (· < ·) := by
      have := hwf.ord
      rw [hio] at this
      exact (List.pairwise_append.mp this).2.1
    by_cases hlt : val < z.key
    · refine .inr ⟨?_, .inr ⟨z, h1, hlt⟩⟩
      intro hmem
      rw [hio] at hmem
      rcases List.mem_append.mp hmem with hm | hm
      · exact lt_irrefl val (hL val hm)
      · rw [← h3] at hm
        rcases List.mem_cons.mp hm with he | hm2
        · exact lt_irrefl val (he ▸ hlt)
        · have : z.key < val := by
            rw [← h3] at hRsorted
            exact List.rel_of_sorted_cons hRsorted val hm2
          exact lt_asymm hlt this
    · have hzv : z.key = val := le_antisymm (not_lt.mp hlt) (hR _ hkR)
      refine .inl ⟨?_, z, h1, h2, hzv⟩
      rw [hio]
      exact List.mem_append.mpr (.inr (hzv ▸ hkR))

/-- `erase(val)` erases exactly the occurrence found by `lower_bound` (one
element when present, nothing when absent) and preserves the invariants. -/
theorem erase_unique_spec (s : rb_tree α) (val : α) (hwf : WF s) :
    ∃ s' cnt, erase_unique s val = some (s', cnt) ∧ WF s' ∧
      (if val ∈ s.root.inorder
        then cnt = 1 ∧ ∃ A B, s.root.inorder = A ++ val :: B ∧
          s'.root.inorder = A ++ B
        else cnt = 0 ∧ s' = s) := by
  rcases lower_bound_cases s val hwf with
    ⟨hmem, z, hlb, hplug, hzk⟩ | ⟨hnm, hcase⟩
  · obtain ⟨s', he, hwf', hio'⟩ := erase_node_spec s z hwf hplug
    refine ⟨s', 1, ?_, hwf', ?_⟩
    · simp only [erase_unique, hlb]
      rw [if_neg (by rw [hzk]; exact lt_irrefl val)]
      simp [he]
    · rw [if_pos hmem]
      refine ⟨rfl, ctxLeft z.ctx ++ z.l.inorder,
        z.r.inorder ++ ctxRight z.ctx, ?_, ?_⟩
      · have h2 := plugZ_inorder z
        rw [hplug] at h2
        rw [h2, hzk]
      · exact hio'
  · refine ⟨s, 0, ?_, hwf, ?_⟩
    · rcases hcase with h1 | ⟨z, h1, h2⟩
      · simp [erase_unique, h1]
      · simp [erase_unique, h1, h2]
    · rw [if_neg hnm]; exact ⟨rfl, rfl⟩

/-- Every operation sequence runs to completion and preserves the full
invariant. -/
theorem runOps_wf (ops : List (Op α)) : ∀ s : rb_tree α, WF s →
    ∃ s', runOps s ops = some s' ∧ WF s' := by
  induction ops with
  | nil => exact fun s hwf => ⟨s, rfl, hwf⟩
  | cons op rest ih =>
    intro s hwf
    cases op with
    | ins v =>
      obtain ⟨s1, rk, b, he, hwf1, -⟩ := insert_unique_spec s v hwf
      obtain ⟨s', he', hwf'⟩ := ih s1 hwf1
      exact ⟨s', by simp [runOps, runOp, he, he'], hwf'⟩
    | del v =>
      obtain ⟨s1, cnt, he, hwf1, -⟩ := erase_unique_spec s v hwf
      obtain ⟨s', he', hwf'⟩ := ih s1 hwf1
      exact ⟨s', by simp [runOps, runOp, he, he'], hwf'⟩

theorem head?_append_cons {β : Type} (A : List β) (x : β) (X Y : List β) :
    (A ++ x :: X).head? = (A ++ x :: Y).head? := by
  cases A <;> rfl

theorem sorted_perm_eq {l1 l2 : List α} (hp : l1.Perm l2)
    (h1 : l1.Sorted (· < ·)) (h2 : l2.Sorted (· < ·)) : l1 = l2 := by
  haveI : IsAntisymm α (· < ·) := ⟨fun a b ha hb => absurd hb (lt_asymm ha)⟩
  exact List.eq_of_perm_of_sorted hp h1 h2

/-- Linking a red leaf into a null slot whose surroundings strictly bracket
`val`, then running `insert_fixup`, succeeds and yields exactly the key
sequence with `val` spliced into the gap. -/
theorem splice_insert {s : rb_tree α} (hwf : WF s) {ctx : Ctx α} {val : α}
    (hplug : plug .nil ctx = s.root)
    (hL : ∀ e ∈ ctxLeft ctx, e < val) (hR : ∀ e ∈ ctxRight ctx, val < e) :
    ∃ t, insert_fixup (.node .red .nil val .nil) ctx = some t ∧
      t.inorder = ctxLeft ctx ++ val :: ctxRight ctx ∧
      s.root.inorder = ctxLeft ctx ++ ctxRight ctx ∧
      (∃ n, Bal t .black n) ∧ t.inorder.Sorted (· < ·) ∧
      t.inorder.length = s.size_ + 1 ∧ val ∉ s.root.inorder := by
  obtain ⟨n₀, hbal⟩ := hwf.bal
  obtain ⟨cz, m, hbz, hcbz⟩ := bal_decompose hbal hplug
  cases hbz
  obtain ⟨t, n', he, hbt, hio⟩ :=
    insert_fixup_spec (Bal.red Bal.nil Bal.nil :
      Bal (Tree.node .red .nil val .nil) .red 0) (InsInv.of_black hcbz)
  have hroot : s.root.inorder = ctxLeft ctx ++ ctxRight ctx := by
    rw [← hplug, inorder_plug]
    simp [Tree.inorder]
  have hio' : t.inorder = ctxLeft ctx ++ val :: ctxRight ctx := by
    rw [hio, inorder_plug]
    simp [Tree.inorder]
  have hsort := hwf.ord
  rw [hroot] at hsort
  have hnot : val ∉ s.root.inorder := by
    rw [hroot]
    intro hmem
    rcases List.mem_append.mp hmem with hm | hm
    · exact lt_irrefl val (hL val hm)
    · exact lt_irrefl val (hR val hm)
  refine ⟨t, he, hio', hroot, ⟨n', hbt⟩, ?_, ?_, hnot⟩
  · rw [hio']
    exact sorted_mid hsort hL hR
  · rw [hio', hwf.siz, hroot]
    simp [List.length_append]
    omega

/-- An accepted hint splice produces the same container observables as the
search-based insert: same fixed-up key sequence, returned key `val`. -/
theorem hint_splice_branch {s : rb_tree α} (hwf : WF s) {ctx : Ctx α} {val : α}
    (hplug : plug .nil ctx = s.root)
    (hL : ∀ e ∈ ctxLeft ctx, e < val) (hR : ∀ e ∈ ctxRight ctx, val < e) :
    ∃ t s'' rk b, insert_fixup (.node .red .nil val .nil) ctx = some t ∧
      insert_unique s val = some (s'', rk, b) ∧ rk = val ∧
      t.inorder = s''.root.inorder ∧
      s''.begin_ = (ctxLeft ctx ++ val :: ctxRight ctx).head? ∧
      s''.size_ = s.size_ + 1 := by
  obtain ⟨t, he, hio, hroot, hbal, hsort, hlen, hnot⟩ := splice_insert hwf hplug hL hR
  obtain ⟨s'', rk, b, he'', hwf'', hcase⟩ := insert_unique_spec s val hwf
  rw [if_neg hnot] at hcase
  obtain ⟨hrk, hb, hperm⟩ := hcase
  have heq : t.inorder = s''.root.inorder := by
    refine sorted_perm_eq (List.Perm.trans ?_ hperm.symm) hsort hwf''.ord
    rw [hio, hroot]
    exact List.perm_middle
  refine ⟨t, s'', rk, b, he, he'', hrk, heq, ?_, ?_⟩
  · rw [hwf''.beg, ← heq, hio]
  · rw [hwf''.siz, ← heq, hlen]

/-- A forward iteration with enough fuel yields exactly the keys at and after
the iterator's position. -/
theorem iterFwd_rem : ∀ (fuel : Nat) (z : Zip α),
    (z.r.inorder ++ ctxRight z.ctx).length < fuel →
    iterFwd fuel (some z) = z.key :: (z.r.inorder ++ ctxRight z.ctx) := by
  intro fuel
  induction fuel with
  | zero => intro z h; exact absurd h (Nat.not_lt_zero _)
  | succ f ih =>
    intro z h
    show z.key :: iterFwd f (next_node z) = _
    rcases next_node_spec z with ⟨h1, h2⟩ | ⟨z', h1, h2, h3⟩
    · rw [h1, h2]
      cases f <;> rfl
    · rw [h1, h3]
      have hlen : (z'.r.inorder ++ ctxRight z'.ctx).length < f := by
        rw [h3] at h
        simpa using Nat.lt_of_succ_lt_succ h
      rw [ih z' hlen]

/-- A backward iteration with enough fuel yields exactly the keys at and
before the iterator's position, last first. -/
theorem iterBwd_rem : ∀ (fuel : Nat) (z : Zip α),
    (ctxLeft z.ctx ++ z.l.inorder).length < fuel →
    iterBwd fuel (some z) = ((ctxLeft z.ctx ++ z.l.inorder) ++ [z.key]).reverse := by
  intro fuel
  induction fuel with
  | zero => intro z h; exact absurd h (Nat.not_lt_zero _)
  | succ f ih =>
    intro z h
    show z.key :: iterBwd f (prev_node z) = _
    rcases prev_node_spec z with ⟨h1, h2⟩ | ⟨z', h1, h2, h3⟩
    · rw [h1, h2]
      cases f <;> simp [iterBwd]
    · rw [h1, h3]
      have hlen : (ctxLeft z'.ctx ++ z'.l.inorder).length < f := by
        rw [h3] at h
        simp only [List.length_append, List.length_cons, List.length_nil] at h ⊢
        omega
      rw [ih z' hlen]
      simp

theorem copy_tree_rec_id (t : Tree α) : copy_tree_rec t = t := by
  induction t with
  | nil => rfl
  | node c l k r ihl ihr => simp [copy_tree_rec, ihl, ihr]

theorem wf_s10 : WF s10 := wf_of_balCheck (n := 1) rfl (by decide) rfl rfl

theorem wf_s13579 : WF s13579 := wf_of_balCheck (n := 2) rfl (by decide) rfl rfl

/-- C1: every sequence of inserts and erases starting from the empty container
runs to completion and leaves a tree satisfying the red-black invariants
(every node red or black, no red node with a red child, equal black counts on
every root-to-nil path, black root) and strict ordering; quantifying over all
sequences covers the state after each individual operation, including the
empty and single-node trees. -/
theorem rb_invariants_all_ops (ops : List (Op α)) :
    ∃ s', runOps rb_tree.mkEmpty ops = some s' ∧
      (∃ n, Bal s'.root .black n) ∧ s'.root.inorder.Sorted (· < ·) := by
  obtain ⟨s', he, hwf⟩ := runOps_wf ops rb_tree.mkEmpty wf_mkEmpty
  exact ⟨s', he, hwf.bal, hwf.ord⟩

/-- C2: inserting a key already stored returns the existing element's iterator
(abstracted to its key, which compares equal to `val`) paired with `false`,
and the container — tree, key sequence and `size_` — is returned unchanged. -/
theorem insert_duplicate_noop (s : rb_tree α) (val : α) (hwf : WF s)
    (hmem : val ∈ s.root.inorder) :
    insert_unique s val = some (s, val, false) := by
  obtain ⟨s', rk, b, he, hwf', hcase⟩ := insert_unique_spec s val hwf
  rw [if_pos hmem] at hcase
  obtain ⟨h1, h2, h3⟩ := hcase
  rw [he, h1, h2, h3]

theorem insert_duplicate_noop_witness :
    WF s10 ∧ (10 : Int) ∈ s10.root.inorder ∧
      insert_unique s10 10 = some (s10, 10, false) ∧ s10.size_ = 1 :=
  ⟨wf_s10, by decide, insert_duplicate_noop s10 10 wf_s10 (by decide), rfl⟩

/-- C3: after any operation sequence from the empty container, the begin cache
holds the head of the sorted key sequence — the leftmost (minimum) real node —
and equals the end sentinel (`none`) exactly when the tree is empty. -/
theorem begin_cache_leftmost (ops : List (Op α)) :
    ∃ s', runOps rb_tree.mkEmpty ops = some s' ∧
      s'.begin_ = s'.root.inorder.head? ∧ s'.root.inorder.Sorted (· < ·) ∧
      (s'.begin_ = none ↔ s'.root = .nil) := by
  obtain ⟨s', he, hwf⟩ := runOps_wf ops rb_tree.mkEmpty wf_mkEmpty
  refine ⟨s', he, hwf.beg, hwf.ord, ?_⟩
  rw [hwf.beg, List.head?_eq_none_iff, inorder_eq_nil_iff]

/-- C4: the erase fixup, handed the possibly-nil `x` together with its
effective parent chain (`xparent`), runs to completion — every sibling read is
a real node, so the nil-link error branch (`none`) is unreachable — and
restores the balance invariant. -/
theorem erase_fixup_nil_x_safe {x : Tree α} {ctx : Ctx α} {cx c : Color}
    {n n₀ : Nat} (hx : Bal x cx n) (hctx : CtxBal ctx c (n + 1) .black n₀) :
    ∃ t' n', erase_fixup x ctx = some t' ∧ Bal t' .black n' ∧
      (plug x ctx).inorder = t'.inorder := by
  obtain ⟨t', n', he, hb, hio⟩ := erase_fixup_spec hx hctx
  exact ⟨t', n', he, hb, hio.symm⟩

theorem erase_fixup_nil_x_safe_witness :
    Bal (Tree.nil : Tree Int) .black 0 ∧
    CtxBal [⟨.left, .black, 3, Tree.node .black .nil 5 .nil⟩] .black 1 .black 2 ∧
    ∃ t' n', erase_fixup (Tree.nil : Tree Int)
        [⟨.left, .black, 3, Tree.node .black .nil 5 .nil⟩] = some t' ∧
      Bal t' .black n' ∧
      (plug (Tree.nil : Tree Int)
        [⟨.left, .black, 3, Tree.node .black .nil 5 .nil⟩]).inorder = t'.inorder := by
  refine ⟨Bal.nil, ?_, ?_⟩
  · exact CtxBal.blackL (Bal.black Bal.nil Bal.nil) CtxBal.root
  · exact erase_fixup_nil_x_safe (c := .black) Bal.nil
      (CtxBal.blackL (Bal.black Bal.nil Bal.nil) CtxBal.root)

/-- C5: `lower_bound` splits the keys into a prefix strictly below `val` and a
suffix of keys not less than `val` and returns an iterator to the suffix head
(`end()` when empty); `upper_bound` does the same with a strict suffix; on
`{1,3,5,7,9}`, `lower_bound(6)` designates `7`, `upper_bound(7)` designates
`9`, and `lower_bound(10)` is `end()`. -/
theorem lower_upper_bound_spec :
    (∀ (s : rb_tree α) (val : α), WF s →
      (∃ L R, s.root.inorder = L ++ R ∧ (∀ e ∈ L, e < val) ∧
        (∀ e ∈ R, val ≤ e) ∧
        ((lower_bound_unique s val = none ∧ R = []) ∨
          (∃ z, lower_bound_unique s val = some z ∧ plugZ z = s.root ∧
            z.key :: (z.r.inorder ++ ctxRight z.ctx) = R))) ∧
      (∃ L R, s.root.inorder = L ++ R ∧ (∀ e ∈ L, e ≤ val) ∧
        (∀ e ∈ R, val < e) ∧
        ((upper_bound_unique s val = none ∧ R = []) ∨
          (∃ z, upper_bound_unique s val = some z ∧ plugZ z = s.root ∧
            z.key :: (z.r.inorder ++ ctxRight z.ctx) = R)))) ∧
    (lower_bound_unique s13579 6).map (fun z => z.key) = some 7 ∧
    (upper_bound_unique s13579 7).map (fun z => z.key) = some 9 ∧
    lower_bound_unique s13579 10 = none := by
  refine ⟨fun s val hwf =>
    ⟨lower_bound_spec s val hwf, upper_bound_spec s val hwf⟩, ?_, ?_, ?_⟩
  · rfl
  · rfl
  · rfl

theorem lower_upper_bound_spec_witness :
    WF s13579 ∧
    (∃ L R, s13579.root.inorder = L ++ R ∧ (∀ e ∈ L, e < (6 : Int)) ∧
      (∀ e ∈ R, (6 : Int) ≤ e) ∧
      ((lower_bound_unique s13579 6 = none ∧ R = []) ∨
        (∃ z, lower_bound_unique s13579 6 = some z ∧ plugZ z = s13579.root ∧
          z.key :: (z.r.inorder ++ ctxRight z.ctx) = R))) :=
  ⟨wf_s13579, ((lower_upper_bound_spec (α := Int)).1 s13579 6 wf_s13579).1⟩

/-- C6: `find(val)` is the `lower_bound` result when that result designates an
element equal to `val` and `end()` otherwise, and `equal_range(val)` is
`(j, j)` when `val` is absent and `(j, next(j))` when present, with
`j = lower_bound(val)`. -/
theorem find_equal_range_spec (s : rb_tree α) (val : α) (hwf : WF s) :
    if val ∈ s.root.inorder then
      ∃ z, lower_bound_unique s val = some z ∧ z.key = val ∧
        find_unique s val = some z ∧
        equal_range_unique s val = (some z, next_node z)
    else
      find_unique s val = none ∧
      equal_range_unique s val
        = (lower_bound_unique s val, lower_bound_unique s val) := by
  rcases lower_bound_cases s val hwf with ⟨hmem, z, hlb, hplug, hzk⟩ | ⟨hnm, hcase⟩
  · rw [if_pos hmem]
    refine ⟨z, hlb, hzk, ?_, ?_⟩
    · simp only [find_unique, hlb]
      rw [if_neg (by rw [hzk]; exact lt_irrefl val)]
    · simp only [equal_range_unique, hlb]
      rw [if_neg (by rw [hzk]; exact lt_irrefl val)]
  · rw [if_neg hnm]
    rcases hcase with h1 | ⟨z, h1, h2⟩
    · exact ⟨by simp [find_unique, h1], by simp [equal_range_unique, h1]⟩
    · exact ⟨by simp [find_unique, h1, h2], by simp [equal_range_unique, h1, h2]⟩

theorem find_equal_range_spec_witness :
    WF s13579 ∧
    (if (5 : Int) ∈ s13579.root.inorder then
      ∃ z, lower_bound_unique s13579 5 = some z ∧ z.key = 5 ∧
        find_unique s13579 5 = some z ∧
        equal_range_unique s13579 5 = (some z, next_node z)
    else
      find_unique s13579 5 = none ∧
      equal_range_unique s13579 5
        = (lower_bound_unique s13579 5, lower_bound_unique s13579 5)) :=
  ⟨wf_s13579, find_equal_range_spec s13579 5 wf_s13579⟩

/-- C8: erasing through the end iterator is a no-op returning the end
sentinel; erasing an absent key returns 0 with the container unchanged;
erasing a present key returns 1. -/
theorem erase_error_handling (s : rb_tree α) (val : α) (hwf : WF s) :
    erase_iter s none = some (s, none) ∧
    ∃ s' cnt, erase_unique s val = some (s', cnt) ∧
      (if val ∈ s.root.inorder then cnt = 1 else cnt = 0 ∧ s' = s) := by
  refine ⟨rfl, ?_⟩
  obtain ⟨s', cnt, he, hwf', hcase⟩ := erase_unique_spec s val hwf
  refine ⟨s', cnt, he, ?_⟩
  by_cases hm : val ∈ s.root.inorder
  · rw [if_pos hm] at hcase ⊢
    exact hcase.1
  · rw [if_neg hm] at hcase ⊢
    exact hcase

theorem erase_error_handling_witness :
    WF s13579 ∧
    (erase_iter s13579 none = some (s13579, none) ∧
      ∃ s' cnt, erase_unique s13579 4 = some (s', cnt) ∧
        (if (4 : Int) ∈ s13579.root.inorder then cnt = 1
          else cnt = 0 ∧ s' = s13579)) :=
  ⟨wf_s13579, erase_error_handling s13579 4 wf_s13579⟩

/-- C9: on a non-empty tree, forward iteration from `begin()` visits exactly
the sorted key sequence and then reaches the end sentinel after the maximum;
decrementing the end sentinel reaches the maximum real node, and backward
iteration from there yields exactly the reverse sequence, ending with
the minimum whose predecessor is the sentinel. -/
theorem traversal_spec (s : rb_tree α) (hwf : WF s) (hne : s.root ≠ .nil) :
    ∃ z0 zN,
      min_node s.root [] = some z0 ∧ s.begin_ = some z0.key ∧
      prevOfEnd s.root = some zN ∧ s.root.inorder.getLast? = some zN.key ∧
      iterFwd s.size_ (some z0) = s.root.inorder ∧
      s.root.inorder.Sorted (· < ·) ∧
      iterBwd s.size_ (some zN) = s.root.inorder.reverse ∧
      next_node zN = none ∧ prev_node z0 = none := by
  rcases hroot : s.root with _ | ⟨c, l, k, r⟩
  · exact absurd hroot hne
  obtain ⟨z0, hm0, h0l, h0plug, h0ctxL, h0in⟩ := min_node_spec c l k r []
  obtain ⟨zN, hmN, hNr, hNplug, hNctxR, hNin⟩ := max_node_spec c l k r []
  have h9 : (Tree.node c l k r).inorder ++ []
      = z0.key :: (z0.r.inorder ++ ctxRight z0.ctx) := h0in
  rw [List.append_nil] at h9
  have hioN : (Tree.node c l k r).inorder
      = (ctxLeft zN.ctx ++ zN.l.inorder) ++ [zN.key] := hNin
  have hord : (Tree.node c l k r).inorder.Sorted (· < ·) := by
    rw [← hroot]; exact hwf.ord
  have hsiz : s.size_ = (Tree.node c l k r).inorder.length := by
    rw [hwf.siz, hroot]
  refine ⟨z0, zN, hm0, ?_, ?_, ?_, ?_, hord, ?_, ?_, ?_⟩
  · rw [hwf.beg, hroot, h9]; rfl
  · show max_node (Tree.node c l k r) [] = some zN
    exact hmN
  · rw [hioN]
    exact List.getLast?_concat _
  · have hlt : (z0.r.inorder ++ ctxRight z0.ctx).length < s.size_ := by
      rw [hsiz, h9]
      simp
    rw [iterFwd_rem s.size_ z0 hlt, h9]
  · have hlt : (ctxLeft zN.ctx ++ zN.l.inorder).length < s.size_ := by
      rw [hsiz, hioN]
      simp
    rw [iterBwd_rem s.size_ zN hlt, hioN]
  · have hrest : zN.r.inorder ++ ctxRight zN.ctx = [] := by
      have h8 : ctxRight zN.ctx = [] := hNctxR
      rw [hNr, h8]; rfl
    rcases next_node_spec zN with ⟨h1, -⟩ | ⟨z', -, -, h3⟩
    · exact h1
    · rw [hrest] at h3; cases h3
  · have hrest : ctxLeft z0.ctx ++ z0.l.inorder = [] := by
      have h8 : ctxLeft z0.ctx = [] := h0ctxL
      rw [h0l, h8]; rfl
    rcases prev_node_spec z0 with ⟨h1, -⟩ | ⟨z', -, -, h3⟩
    · exact h1
    · rw [hrest] at h3
      exact absurd h3.symm (by simp)

theorem traversal_spec_witness :
    WF s13579 ∧ s13579.root ≠ .nil ∧
    (∃ z0 zN,
      min_node s13579.root [] = some z0 ∧ s13579.begin_ = some z0.key ∧
      prevOfEnd s13579.root = some zN ∧
      s13579.root.inorder.getLast? = some zN.key ∧
      iterFwd s13579.size_ (some z0) = s13579.root.inorder ∧
      s13579.root.inorder.Sorted (· < ·) ∧
      iterBwd s13579.size_ (some zN) = s13579.root.inorder.reverse ∧
      next_node zN = none ∧ prev_node z0 = none) :=
  ⟨wf_s13579, by decide, traversal_spec s13579 wf_s13579 (by decide)⟩

/-- C10: copy construction duplicates the node structure, colors, keys and
size — but recomputing the begin cache as `min_node(root())` dereferences the
null root when the source is empty, so copying the empty container fails
(`none` models the null-pointer dereference); for every non-empty source it
yields an identical tree. -/
theorem copy_construct_empty_bug :
    copy_tree (rb_tree.mkEmpty : rb_tree Int) = none ∧
    ∀ (s : rb_tree Int) (c : Color) (l : Tree Int) (k : Int) (r : Tree Int),
      s.root = .node c l k r →
      ∃ s', copy_tree s = some s' ∧ s'.root = s.root ∧ s'.size_ = s.size_ ∧
        s'.root.inorder = s.root.inorder := by
  constructor
  · rfl
  · intro s c l k r hroot
    obtain ⟨zm, hme, -, -, -, -⟩ := min_node_spec c l k r []
    refine ⟨⟨s.root, some zm.key, s.size_⟩, ?_, rfl, rfl, rfl⟩
    simp [copy_tree, copy_tree_rec_id, hroot, hme]

theorem copy_construct_empty_bug_witness :
    s10.root = .node .black .nil 10 .nil ∧
    (∃ s', copy_tree s10 = some s' ∧ s'.root = s10.root ∧
      s'.size_ = s10.size_ ∧ s'.root.inorder = s10.root.inorder) :=
  ⟨rfl, copy_construct_empty_bug.2 s10 .black .nil 10 .nil rfl⟩

/-- C7: the hinted insert produces the same observable container and returned
element as the plain search insert: same key sequence, same begin cache, same
size, and the returned iterator designates the element holding `val` — whether
the hint is accepted (a direct splice next to the hint) or the code falls back
to the full search. -/
theorem insert_hint_equiv (s : rb_tree α) (pos : Option (Zip α)) (val : α)
    (hwf : WF s) (hpos : ∀ z, pos = some z → plugZ z = s.root) :
    ∃ s' s'' rk b, insert_unique_pos s pos val = some (s', val) ∧
      insert_unique s val = some (s'', rk, b) ∧ rk = val ∧
      s'.root.inorder = s''.root.inorder ∧ s'.begin_ = s''.begin_ ∧
      s'.size_ = s''.size_ := by
  cases pos with
  | none =>
    rcases hb : s.begin_ with _ | bk
    · -- pos == end_ on the empty container: plant the root
      have hroot : s.root = Tree.nil := by
        have h1 := hwf.beg
        rw [hb] at h1
        exact (inorder_eq_nil_iff _).mp (List.head?_eq_none_iff.mp h1.symm)
      have hplug0 : plug Tree.nil ([] : Ctx α) = s.root := by rw [hroot]; rfl
      obtain ⟨t, s'', rk, b, he, he'', hrk, hio, hbeg'', hsiz''⟩ :=
        hint_splice_branch hwf hplug0 (by simp [ctxLeft]) (by simp [ctxRight])
      refine ⟨⟨t, some val, s.size_ + 1⟩, s'', rk, b, ?_, he'', hrk, hio, ?_, ?_⟩
      · simp [insert_unique_pos, hb, he]
      · rw [hbeg'']; rfl
      · rw [hsiz'']
    · -- pos == end_ on a non-empty container: hint checks the maximum
      have hne : s.root ≠ Tree.nil := by
        intro h0
        have h1 := hwf.beg
        rw [hb, h0] at h1
        simp [Tree.inorder] at h1
      rcases hroot : s.root with _ | ⟨c, l, k, r⟩
      · exact absurd hroot hne
      obtain ⟨zm, hme, hmr, hmplug, hmctxR, hmin⟩ := max_node_spec c l k r []
      have hpe : prevOfEnd s.root = some zm := by
        show max_node s.root [] = some zm
        rw [hroot]; exact hme
      have hioz : s.root.inorder
          = (ctxLeft zm.ctx ++ zm.l.inorder) ++ [zm.key] := by
        rw [hroot]; exact hmin
      by_cases hklt : zm.key < val
      · -- accepted: splice below the maximum's null right child
        have hctxR0 : ctxRight zm.ctx = [] := hmctxR
        have hplug' : plug Tree.nil (⟨.right, zm.color, zm.key, zm.l⟩ :: zm.ctx)
            = s.root := by
          show plug (Tree.node zm.color zm.l zm.key Tree.nil) zm.ctx = s.root
          rw [← hmr]
          rw [show Tree.node zm.color zm.l zm.key zm.r = zm.tree from rfl,
            hmplug, hroot]
          rfl
        have hL' : ∀ e ∈ ctxLeft (⟨Dir.right, zm.color, zm.key, zm.l⟩ :: zm.ctx),
            e < val := by
          intro e he
          have he' : e ∈ (ctxLeft zm.ctx ++ zm.l.inorder) ++ [zm.key] := he
          have hsort := hwf.ord
          rw [hioz] at hsort
          obtain ⟨-, -, hcross⟩ := List.pairwise_append.mp hsort
          rcases List.mem_append.mp he' with h1 | h2
          · exact lt_trans (hcross e h1 zm.key (List.mem_singleton.mpr rfl)) hklt
          · rw [List.mem_singleton.mp h2]; exact hklt
        have hR' : ∀ e ∈ ctxRight (⟨Dir.right, zm.color, zm.key, zm.l⟩ :: zm.ctx),
            val < e := by
          intro e he
          have he' : e ∈ ctxRight zm.ctx := he
          rw [hctxR0] at he'
          cases he'
        obtain ⟨t, s'', rk, b, he, he'', hrk, hio, hbeg'', hsiz''⟩ :=
          hint_splice_branch hwf hplug' hL' hR'
        refine ⟨⟨t, s.begin_, s.size_ + 1⟩, s'', rk, b, ?_, he'', hrk, hio, ?_, ?_⟩
        · simp [insert_unique_pos, hb, hpe, hklt, he]
        · show s.begin_ = s''.begin_
          rw [hbeg'', hwf.beg, hioz]
          show ((ctxLeft zm.ctx ++ zm.l.inorder) ++ [zm.key]).head?
            = ((ctxLeft zm.ctx ++ zm.l.inorder ++ [zm.key])
              ++ val :: ctxRight zm.ctx).head?
          rw [List.append_assoc (ctxLeft zm.ctx ++ zm.l.inorder)]
          exact head?_append_cons _ zm.key [] (val :: ctxRight zm.ctx)
        · rw [hsiz'']
      · -- rejected: fall back to the search insert
        obtain ⟨s'', rk, b, he'', hwf'', hcase⟩ := insert_unique_spec s val hwf
        have hrk : rk = val := by
          by_cases hm : val ∈ s.root.inorder
          · rw [if_pos hm] at hcase; exact hcase.2.1
          · rw [if_neg hm] at hcase; exact hcase.1
        refine ⟨s'', s'', rk, b, ?_, he'', hrk, rfl, rfl, rfl⟩
        simp [insert_unique_pos, hb, hpe, hklt, he'', hrk]
  | some pz =>
    have hpz : plugZ pz = s.root := hpos pz rfl
    have hioz := plugZ_inorder pz
    rw [hpz] at hioz
    by_cases hbk : s.begin_ = some pz.key
    · by_cases hvk : val < pz.key
      · -- accepted: splice below the leftmost node's null left child
        have hP : ctxLeft pz.ctx ++ pz.l.inorder = [] := by
          rcases hP0 : ctxLeft pz.ctx ++ pz.l.inorder with _ | ⟨p, P'⟩
          · rfl
          · exfalso
            have h1 : s.root.inorder.head? = some p := by
              rw [hioz, hP0]; rfl
            have h2 : p = pz.key := by
              have h3 := hwf.beg
              rw [hbk, h1] at h3
              exact (Option.some.inj h3).symm
            have hsort := hwf.ord
            rw [hioz, hP0] at hsort
            obtain ⟨-, -, hcross⟩ := List.pairwise_append.mp hsort
            have h4 : p < pz.key :=
              hcross p (List.mem_cons_self _ _) pz.key (List.mem_cons_self _ _)
            rw [h2] at h4
            exact lt_irrefl _ h4
        have hctxL0 : ctxLeft pz.ctx = [] := (List.append_eq_nil.mp hP).1
        have hpzl : pz.l = Tree.nil :=
          (inorder_eq_nil_iff _).mp (List.append_eq_nil.mp hP).2
        have hplug' : plug Tree.nil (⟨.left, pz.color, pz.key, pz.r⟩ :: pz.ctx)
            = s.root := by
          show plug (Tree.node pz.color Tree.nil pz.key pz.r) pz.ctx = s.root
          rw [← hpzl]
          exact hpz
        have hL' : ∀ e ∈ ctxLeft (⟨Dir.left, pz.color, pz.key, pz.r⟩ :: pz.ctx),
            e < val := by
          intro e he
          have he' : e ∈ ctxLeft pz.ctx := he
          rw [hctxL0] at he'
          cases he'
        have hR' : ∀ e ∈ ctxRight (⟨Dir.left, pz.color, pz.key, pz.r⟩ :: pz.ctx),
            val < e := by
          intro e he
          have he' : e ∈ pz.key :: (pz.r.inorder ++ ctxRight pz.ctx) := he
          have hsort := hwf.ord
          rw [hioz, hP] at hsort
          have hsort' : (pz.key :: (pz.r.inorder ++ ctxRight pz.ctx)).Sorted
              (· < ·) := hsort
          rcases List.mem_cons.mp he' with rfl | h2
          · exact hvk
          · exact lt_trans hvk (List.rel_of_sorted_cons hsort' e h2)
        obtain ⟨t, s'', rk, b, he, he'', hrk, hio, hbeg'', hsiz''⟩ :=
          hint_splice_branch hwf hplug' hL' hR'
        refine ⟨⟨t, some val, s.size_ + 1⟩, s'', rk, b, ?_, he'', hrk, hio, ?_, ?_⟩
        · simp [insert_unique_pos, hbk, hvk, he]
        · show some val = s''.begin_
          rw [hbeg'']
          show some val = (ctxLeft pz.ctx
            ++ val :: (pz.key :: (pz.r.inorder ++ ctxRight pz.ctx))).head?
          rw [hctxL0]
          rfl
        · rw [hsiz'']
      · -- rejected: fall back
        obtain ⟨s'', rk, b, he'', hwf'', hcase⟩ := insert_unique_spec s val hwf
        have hrk : rk = val := by
          by_cases hm : val ∈ s.root.inorder
          · rw [if_pos hm] at hcase; exact hcase.2.1
          · rw [if_neg hm] at hcase; exact hcase.1
        refine ⟨s'', s'', rk, b, ?_, he'', hrk, rfl, rfl, rfl⟩
        simp [insert_unique_pos, hbk, hvk, he'', hrk]
    · -- pos is not begin: consult the predecessor
      rcases hpn : prev_node pz with _ | prev
      · -- prev == end_ would make pz the leftmost node, contradicting hbk
        exfalso
        rcases prev_node_spec pz with ⟨-, h2⟩ | ⟨z', h1, -, -⟩
        · apply hbk
          rw [hwf.beg, hioz, h2]
          rfl
        · rw [hpn] at h1
          cases h1
      · rcases prev_node_spec pz with ⟨h1, -⟩ | ⟨prev', h1, hplugp, hleft⟩
        · rw [hpn] at h1; cases h1
        · have hiop : s.root.inorder = (ctxLeft prev'.ctx ++ prev'.l.inorder)
              ++ prev'.key :: (prev'.r.inorder ++ ctxRight prev'.ctx) := by
            have h9 := plugZ_inorder prev'
            rw [hplugp, hpz] at h9
            exact h9
          have hcancel : prev'.r.inorder ++ ctxRight prev'.ctx
              = pz.key :: (pz.r.inorder ++ ctxRight pz.ctx) := by
            have h9 : (ctxLeft prev'.ctx ++ prev'.l.inorder)
                  ++ prev'.key :: (prev'.r.inorder ++ ctxRight prev'.ctx)
                = (ctxLeft prev'.ctx ++ prev'.l.inorder)
                  ++ prev'.key :: (pz.key :: (pz.r.inorder ++ ctxRight pz.ctx)) := by
              rw [← hiop, hioz, hleft]
              simp [List.append_assoc]
            exact (List.cons.inj (List.append_cancel_left h9)).2
          by_cases hcond : prev'.key < val ∧ val < pz.key
          · have hBlt : ∀ e ∈ ctxLeft prev'.ctx ++ prev'.l.inorder, e < val := by
              intro e he
              have hsort := hwf.ord
              rw [hiop] at hsort
              obtain ⟨-, -, hcross⟩ := List.pairwise_append.mp hsort
              exact lt_trans (hcross e he prev'.key (List.mem_cons_self _ _))
                hcond.1
            have hsuffix : (pz.key :: (pz.r.inorder ++ ctxRight pz.ctx)).Sorted
                (· < ·) := by
              have hsort := hwf.ord
              rw [hioz] at hsort
              exact (List.pairwise_append.mp hsort).2.1
            have hAgt : ∀ e ∈ pz.key :: (pz.r.inorder ++ ctxRight pz.ctx),
                val < e := by
              intro e he
              rcases List.mem_cons.mp he with rfl | h2
              · exact hcond.2
              · exact lt_trans hcond.2 (List.rel_of_sorted_cons hsuffix e h2)
            by_cases hpr : prev'.r = Tree.nil
            · -- splice below the predecessor's null right child
              have hplug' : plug Tree.nil
                  (⟨.right, prev'.color, prev'.key, prev'.l⟩ :: prev'.ctx)
                  = s.root := by
                show plug (Tree.node prev'.color prev'.l prev'.key Tree.nil)
                  prev'.ctx = s.root
                rw [← hpr]
                exact hplugp.trans hpz
              have hL' : ∀ e ∈ ctxLeft
                  (⟨Dir.right, prev'.color, prev'.key, prev'.l⟩ :: prev'.ctx),
                  e < val := by
                intro e he
                have he' : e ∈ (ctxLeft prev'.ctx ++ prev'.l.inorder)
                    ++ [prev'.key] := he
                rcases List.mem_append.mp he' with h1 | h2
                · exact hBlt e h1
                · rw [List.mem_singleton.mp h2]; exact hcond.1
              have hR' : ∀ e ∈ ctxRight
                  (⟨Dir.right, prev'.color, prev'.key, prev'.l⟩ :: prev'.ctx),
                  val < e := by
                intro e he
                have he' : e ∈ ctxRight prev'.ctx := he
                apply hAgt
                rw [← hcancel]
                exact List.mem_append.mpr (.inr he')
              obtain ⟨t, s'', rk, b, he, he'', hrk, hio, hbeg'', hsiz''⟩ :=
                hint_splice_branch hwf hplug' hL' hR'
              refine ⟨⟨t, s.begin_, s.size_ + 1⟩, s'', rk, b, ?_, he'', hrk,
                hio, ?_, ?_⟩
              · simp [insert_unique_pos, hbk, h1, hcond, hpr, he]
              · show s.begin_ = s''.begin_
                rw [hbeg'', hwf.beg, hiop]
                show ((ctxLeft prev'.ctx ++ prev'.l.inorder)
                    ++ prev'.key :: (prev'.r.inorder ++ ctxRight prev'.ctx)).head?
                  = ((ctxLeft prev'.ctx ++ prev'.l.inorder ++ [prev'.key])
                    ++ val :: ctxRight prev'.ctx).head?
                rw [List.append_assoc (ctxLeft prev'.ctx ++ prev'.l.inorder)]
                exact head?_append_cons _ prev'.key _ (val :: ctxRight prev'.ctx)
              · rw [hsiz'']
            · -- the predecessor has a right child, so pz's left is null
              have hpzl : pz.l = Tree.nil := by
                rcases hl : pz.l with _ | ⟨cl2, a2, k2, b2⟩
                · rfl
                · exfalso
                  obtain ⟨zm2, hm2, hm2r, -, -, -⟩ := max_node_spec cl2 a2 k2 b2
                    (⟨.left, pz.color, pz.key, pz.r⟩ :: pz.ctx)
                  have h9 : prev_node pz = max_node (Tree.node cl2 a2 k2 b2)
                      (⟨.left, pz.color, pz.key, pz.r⟩ :: pz.ctx) := by
                    rw [prev_node, hl]
                  rw [h9, hm2] at h1
                  apply hpr
                  rw [← Option.some.inj h1]
                  exact hm2r
              have hctxL : ctxLeft pz.ctx
                  = (ctxLeft prev'.ctx ++ prev'.l.inorder) ++ [prev'.key] := by
                have h9 := hleft
                rw [hpzl] at h9
                have h10 : ctxLeft pz.ctx ++ [] = (ctxLeft prev'.ctx
                    ++ prev'.l.inorder) ++ [prev'.key] := h9
                rw [List.append_nil] at h10
                exact h10
              have hplug' : plug Tree.nil
                  (⟨.left, pz.color, pz.key, pz.r⟩ :: pz.ctx) = s.root := by
                show plug (Tree.node pz.color Tree.nil pz.key pz.r) pz.ctx
                  = s.root
                rw [← hpzl]
                exact hpz
              have hL' : ∀ e ∈ ctxLeft
                  (⟨Dir.left, pz.color, pz.key, pz.r⟩ :: pz.ctx), e < val := by
                intro e he
                have he' : e ∈ ctxLeft pz.ctx := he
                rw [hctxL] at he'
                rcases List.mem_append.mp he' with h1 | h2
                · exact hBlt e h1
                · rw [List.mem_singleton.mp h2]; exact hcond.1
              have hR' : ∀ e ∈ ctxRight
                  (⟨Dir.left, pz.color, pz.key, pz.r⟩ :: pz.ctx), val < e := by
                intro e he
                have he' : e ∈ pz.key :: (pz.r.inorder ++ ctxRight pz.ctx) := he
                exact hAgt e he'
              obtain ⟨t, s'', rk, b, he, he'', hrk, hio, hbeg'', hsiz''⟩ :=
                hint_splice_branch hwf hplug' hL' hR'
              refine ⟨⟨t, s.begin_, s.size_ + 1⟩, s'', rk, b, ?_, he'', hrk,
                hio, ?_, ?_⟩
              · simp [insert_unique_pos, hbk, h1, hcond, hpr, he]
              · show s.begin_ = s''.begin_
                rw [hbeg'', hwf.beg, hiop]
                show ((ctxLeft prev'.ctx ++ prev'.l.inorder)
                    ++ prev'.key :: (prev'.r.inorder ++ ctxRight prev'.ctx)).head?
                  = (ctxLeft pz.ctx
                    ++ val :: (pz.key :: (pz.r.inorder ++ ctxRight pz.ctx))).head?
                rw [hctxL,
                  List.append_assoc (ctxLeft prev'.ctx ++ prev'.l.inorder)]
                exact head?_append_cons _ prev'.key _
                  (val :: (pz.key :: (pz.r.inorder ++ ctxRight pz.ctx)))
              · rw [hsiz'']
          · -- rejected: fall back
            obtain ⟨s'', rk, b, he'', hwf'', hcase⟩ := insert_unique_spec s val hwf
            have hrk : rk = val := by
              by_cases hm : val ∈ s.root.inorder
              · rw [if_pos hm] at hcase; exact hcase.2.1
              · rw [if_neg hm] at hcase; exact hcase.1
            refine ⟨s'', s'', rk, b, ?_, he'', hrk, rfl, rfl, rfl⟩
            simp [insert_unique_pos, hbk, h1, hcond, he'', hrk]

theorem insert_hint_equiv_witness :
    WF s13579 ∧
    (∃ s' s'' rk b, insert_unique_pos s13579 none 6 = some (s', 6) ∧
      insert_unique s13579 6 = some (s'', rk, b) ∧ rk = 6 ∧
      s'.root.inorder = s''.root.inorder ∧ s'.begin_ = s''.begin_ ∧
      s'.size_ = s''.size_) :=
  ⟨wf_s13579, insert_hint_equiv s13579 none 6 wf_s13579 (fun z h => nomatch h)⟩

end OrderedLayer

end RbTree
